import Mathlib

/-!
Shallow embedding of `TimerQueue` from `audio_utils/TimerQueue.cpp` / `TimerQueue.h`
(namespace `android::audio_utils`), together with proofs about its behaviour.

Modelling conventions:
* `EventId = int64_t` and `nsecs_t = int64_t` are both modelled as `Int`; the id
  counter wraps explicitly at `INT64_MAX` exactly as `getNextEventId_l` does.
* `std::map<EventId, std::pair<std::shared_ptr<Event>, nsecs_t>> mEvents` is modelled
  as a strictly key-sorted association list; `emplace` does not overwrite an existing key.
* `std::multimap<nsecs_t, EventId> mTimeIndex` is modelled as a key-sorted list where
  `emplace` inserts at the upper bound of the equal-key range, as `std::multimap` does.
* The single underlying timer of an `AlarmClock` is modelled by the field `armed`, holding
  the last value passed to `IClock::setTimer` (0 = disarmed); arming is assumed to succeed,
  matching the code which ignores `setTimer` errors.
* `mRunning` is a reference into the owning `TimerQueue`, so operations take the current
  value of the flag as an explicit parameter.
* `std::function<void()>` contents are irrelevant to scheduling; an event callback is
  identified with its `Event` value, and the null-check `!function` on submission is
  modelled by a boolean `fnValid` parameter.  `std::set<std::shared_ptr<Event>>`, the
  identity-deduplicated collection set of `threadLoop`, is modelled as a duplicate-free
  list in collection order.
* The dereference `mTimeIndex.begin()` in `AlarmClock::remove` on an empty container is
  undefined behaviour in C++; the model makes `remove` return `none` in that case.
-/

namespace AudioUtils

def INVALID_EVENT_ID : Int := -1

/-- `std::numeric_limits<int64_t>::max()`, the wrap point of `getNextEventId_l`. -/
def INT64_MAX : Int := 9223372036854775807

/-- `TimerQueue::Event` (the callback member is dropped; see file header). -/
structure Event where
  id : Int
  priorityTime : Int
deriving DecidableEq, Repr

/-- Entries of `mEvents`: id, shared event pointer, execution time in this clock domain. -/
abbrev EventsMap : Type := List (Int × Event × Int)

/-- Entries of `mTimeIndex`: execution time, id. -/
abbrev TimeIndex : Type := List (Int × Int)

/-- `mEvents.find(id)` as an association-list lookup. -/
def mapFind (id : Int) : EventsMap → Option (Event × Int)
  | [] => none
  | (k, v) :: rest => if k = id then some v else mapFind id rest

/-- `mEvents.emplace(id, v)`: ordered insertion; an existing key is left unchanged. -/
def mapInsert (id : Int) (v : Event × Int) : EventsMap → EventsMap
  | [] => [(id, v)]
  | (k, w) :: rest =>
    if id < k then (id, v) :: (k, w) :: rest
    else if id = k then (k, w) :: rest
    else (k, w) :: mapInsert id v rest

/-- `mEvents.erase(it)` for the iterator found by `find(id)`: drops the entry with that key. -/
def mapErase (id : Int) : EventsMap → EventsMap
  | [] => []
  | (k, w) :: rest => if k = id then rest else (k, w) :: mapErase id rest

/-- `mTimeIndex.emplace(t, id)`: `std::multimap` inserts at the upper bound of the
equal-key range, i.e. before the first entry whose key is strictly greater. -/
def mmInsert (t : Int) (id : Int) : TimeIndex → TimeIndex
  | [] => [(t, id)]
  | (t₂, i₂) :: rest =>
    if t < t₂ then (t, id) :: (t₂, i₂) :: rest
    else (t₂, i₂) :: mmInsert t id rest

/-- The erase loop of `AlarmClock::remove`: walk `equal_range(t)` and erase the first
entry carrying `id`; entries with a key beyond `t` terminate the walk. -/
def mmEraseFirst (t : Int) (id : Int) : TimeIndex → TimeIndex
  | [] => []
  | (t₂, i₂) :: rest =>
    if t₂ = t ∧ i₂ = id then rest
    else if t < t₂ then (t₂, i₂) :: rest
    else (t₂, i₂) :: mmEraseFirst t id rest

/-- Number of occurrences of one (deadline, id) entry in a time index. -/
def countPair (q : Int × Int) : TimeIndex → Nat
  | [] => 0
  | r :: rest => (if r = q then 1 else 0) + countPair q rest

/-- `TimerQueue::AlarmClock`; the timer handle is elided and the timer state is the
last armed absolute time (see file header). -/
structure AlarmClock where
  mEvents : EventsMap
  mTimeIndex : TimeIndex
  armed : Int
deriving DecidableEq, Repr

/-- A fresh `AlarmClock`: both indexes empty, underlying `timerfd` initially disarmed. -/
def AlarmClock.init : AlarmClock := { mEvents := [], mTimeIndex := [], armed := 0 }

/-- `AlarmClock::armTimerForNextEvent`: arm to 1 during shutdown, else to the earliest
deadline held, else disarm (0). -/
def AlarmClock.armTimerForNextEvent (running : Bool) (ac : AlarmClock) : AlarmClock :=
  let nextTime : Int :=
    if ¬ running then 1
    else
      match ac.mTimeIndex.head? with
      | some (t, _) => t
      | none => 0
  { ac with armed := nextTime }

/-- `AlarmClock::add`. -/
def AlarmClock.add (running : Bool) (executionTime : Int) (event : Event)
    (ac : AlarmClock) : AlarmClock :=
  let needsReschedule :=
    match ac.mTimeIndex.head? with
    | none => true
    | some (t, _) => executionTime < t
  let ac₂ : AlarmClock :=
    { ac with
      mEvents := mapInsert event.id (event, executionTime) ac.mEvents
      mTimeIndex := mmInsert executionTime event.id ac.mTimeIndex }
  if needsReschedule then ac₂.armTimerForNextEvent running else ac₂

/-- `AlarmClock::remove`.  Returns `none` when the code would dereference
`mTimeIndex.begin()` on an empty container (undefined behaviour). -/
def AlarmClock.remove (running : Bool) (id : Int) (ac : AlarmClock) :
    Option (Bool × AlarmClock) :=
  if id = INVALID_EVENT_ID then some (false, ac)
  else
    match mapFind id ac.mEvents with
    | none => some (false, ac)
    | some (_, executionTime) =>
      match ac.mTimeIndex.head? with
      | none => none
      | some (_, headId) =>
        let wasNext := headId = id
        let ac₂ : AlarmClock :=
          { ac with
            mEvents := mapErase id ac.mEvents
            mTimeIndex := mmEraseFirst executionTime id ac.mTimeIndex }
        some (true, if wasNext then ac₂.armTimerForNextEvent running else ac₂)

/-- Insertion into the `std::set<std::shared_ptr<Event>>` of collected events:
a pointer already present is not added again. -/
def setInsert (e : Event) (s : List Event) : List Event :=
  if e ∈ s then s else s ++ [e]

/-- The collection loop of `AlarmClock::collectEvents`: pop the head of the time index
while its deadline is `≤ now`, moving the owned event (when its id is still present in
`mEvents`) into the output set. -/
def collectLoop (now : Int) :
    TimeIndex → EventsMap → List Event → TimeIndex × EventsMap × List Event
  | [], evs, out => ([], evs, out)
  | (t, id) :: rest, evs, out =>
    if t ≤ now then
      match mapFind id evs with
      | some (e, _) => collectLoop now rest (mapErase id evs) (setInsert e out)
      | none => collectLoop now rest evs out
    else ((t, id) :: rest, evs, out)

/-- `AlarmClock::collectEvents`: run the collection loop, then re-arm unconditionally. -/
def AlarmClock.collectEvents (running : Bool) (now : Int) (out : List Event)
    (ac : AlarmClock) : List Event × AlarmClock :=
  let r := collectLoop now ac.mTimeIndex ac.mEvents out
  (r.2.2,
    AlarmClock.armTimerForNextEvent running { ac with mTimeIndex := r.1, mEvents := r.2.1 })

/-- `AlarmClock::removeEvents`: remove every collected event by id. -/
def AlarmClock.removeEvents (running : Bool) (events : List Event) (ac : AlarmClock) :
    Option AlarmClock :=
  match events with
  | [] => some ac
  | e :: rest =>
    match ac.remove running e.id with
    | none => none
    | some (_, ac₂) => ac₂.removeEvents running rest

/-- `TimerQueue` state: clock readiness, the `mAlarm` mode flag, `mRunning`,
`mNextEventId` and the `mAlarmClocks` vector (slot 0 `BOOTTIME`, slot 1
`BOOTTIME_ALARM` when present). -/
structure TimerQueue where
  clockReady : Bool
  mAlarm : Bool
  mRunning : Bool
  mNextEventId : Int
  mAlarmClocks : List AlarmClock
deriving DecidableEq, Repr

/-- The `TimerQueue` constructor: one `BOOTTIME` clock, plus a `BOOTTIME_ALARM` clock
when `alarm` is set; `mRunning` becomes true before the dispatcher thread starts. -/
def TimerQueue.mk' (clockReady alarm : Bool) : TimerQueue :=
  { clockReady := clockReady
    mAlarm := alarm
    mRunning := true
    mNextEventId := 1
    mAlarmClocks := if alarm then [AlarmClock.init, AlarmClock.init] else [AlarmClock.init] }

/-- In-place update of `mAlarmClocks[i]`. -/
def updateClock (i : Nat) (f : AlarmClock → AlarmClock) : List AlarmClock → List AlarmClock
  | [] => []
  | c :: rest =>
    match i with
    | 0 => f c :: rest
    | j + 1 => c :: updateClock j f rest

/-- `TimerQueue::getNextEventId_l`. -/
def TimerQueue.getNextEventId_l (tq : TimerQueue) : Int × TimerQueue :=
  let id := tq.mNextEventId
  (id, { tq with mNextEventId := if id = INT64_MAX then 1 else id + 1 })

/-- The single-deadline `TimerQueue::add(function, executionTime)`. -/
def TimerQueue.add (fnValid : Bool) (executionTime : Int) (tq : TimerQueue) :
    Int × TimerQueue :=
  if ¬ tq.clockReady ∨ ¬ fnValid then (INVALID_EVENT_ID, tq)
  else
    let r := tq.getNextEventId_l
    let event : Event := { id := r.1, priorityTime := executionTime }
    let idx : Nat := if tq.mAlarm then 1 else 0
    (r.1,
      { r.2 with
        mAlarmClocks :=
          updateClock idx (AlarmClock.add r.2.mRunning executionTime event)
            r.2.mAlarmClocks })

/-- The dual-deadline `TimerQueue::add(function, softDeadline, hardDeadline, priorityTime)`. -/
def TimerQueue.addDual (fnValid : Bool) (softDeadline hardDeadline priorityTime : Int)
    (tq : TimerQueue) : Int × TimerQueue :=
  if ¬ tq.clockReady ∨ ¬ fnValid then (INVALID_EVENT_ID, tq)
  else
    let r := tq.getNextEventId_l
    let event : Event :=
      { id := r.1
        priorityTime := if priorityTime ≥ 0 then priorityTime else hardDeadline }
    let clocks :=
      if tq.mAlarm then
        updateClock 1 (AlarmClock.add r.2.mRunning hardDeadline event)
          (updateClock 0 (AlarmClock.add r.2.mRunning softDeadline event) r.2.mAlarmClocks)
      else
        updateClock 0 (AlarmClock.add r.2.mRunning softDeadline event) r.2.mAlarmClocks
    (r.1, { r.2 with mAlarmClocks := clocks })

/-- The loop of `TimerQueue::remove` over all alarm clocks, or-ing the results. -/
def removeFromClocks (running : Bool) (id : Int) :
    List AlarmClock → Option (Bool × List AlarmClock)
  | [] => some (false, [])
  | c :: rest =>
    match c.remove running id with
    | none => none
    | some (b, c₂) =>
      match removeFromClocks running id rest with
      | none => none
      | some (b₂, rest₂) => some (b || b₂, c₂ :: rest₂)

/-- `TimerQueue::remove`. -/
def TimerQueue.remove (id : Int) (tq : TimerQueue) : Option (Bool × TimerQueue) :=
  if ¬ tq.clockReady ∨ id = INVALID_EVENT_ID then some (false, tq)
  else
    match removeFromClocks tq.mRunning id tq.mAlarmClocks with
    | none => none
    | some (found, clocks) => some (found, { tq with mAlarmClocks := clocks })

/-- The first loop of a `threadLoop` dispatch pass: collect due events from every
alarm clock in order into the shared set. -/
def collectAll (running : Bool) (now : Int) :
    List AlarmClock → List Event → List AlarmClock × List Event
  | [], out => ([], out)
  | c :: rest, out =>
    let r := c.collectEvents running now out
    let r₂ := collectAll running now rest r.1
    (r.2 :: r₂.1, r₂.2)

/-- The second loop of a dispatch pass: erase sibling registrations of collected events. -/
def removeEventsAll (running : Bool) (events : List Event) :
    List AlarmClock → Option (List AlarmClock)
  | [] => some []
  | c :: rest =>
    match c.removeEvents running events with
    | none => none
    | some c₂ =>
      match removeEventsAll running events rest with
      | none => none
      | some rest₂ => some (c₂ :: rest₂)

/-- One stable insertion for the executed-order sort keyed by `priorityTime`. -/
def insertByPriority (e : Event) : List Event → List Event
  | [] => [e]
  | f :: rest =>
    if e.priorityTime ≤ f.priorityTime then e :: f :: rest
    else f :: insertByPriority e rest

/-- The `std::sort` call of `threadLoop`, whose comparator orders solely by
`priorityTime`: modelled as a sort producing some `priorityTime`-ascending
permutation of the collected set. -/
def sortByPriority : List Event → List Event
  | [] => []
  | e :: rest => insertByPriority e (sortByPriority rest)

/-- The body of one `threadLoop` iteration after `wait` returned a timer handle:
under the lock, bail out when not running, else collect and deduplicate; outside the
lock, sort and return the events to execute in order. -/
def TimerQueue.dispatchPass (now : Int) (tq : TimerQueue) :
    Option (List Event × TimerQueue) :=
  if ¬ tq.mRunning then some ([], tq)
  else
    let r := collectAll tq.mRunning now tq.mAlarmClocks []
    match removeEventsAll tq.mRunning r.2 r.1 with
    | none => none
    | some clocks => some (sortByPriority r.2, { tq with mAlarmClocks := clocks })

/-- The shutdown signalling phase of `TimerQueue::~TimerQueue` (under the lock):
clear `mRunning`, then arm every alarm clock for immediate fire. -/
def TimerQueue.destructorSignal (tq : TimerQueue) : TimerQueue :=
  { tq with
    mRunning := false
    mAlarmClocks := tq.mAlarmClocks.map (AlarmClock.armTimerForNextEvent false) }

/-- `TimerQueue::~TimerQueue`: early-out when the clock is not ready; otherwise signal
shutdown, join the dispatcher thread, then release the clock and the alarm clocks. -/
def TimerQueue.destructor (tq : TimerQueue) : TimerQueue :=
  if ¬ tq.clockReady then tq
  else
    let tq₂ := tq.destructorSignal
    { tq₂ with clockReady := false, mAlarmClocks := [] }

/-- Whether an alarm clock currently holds an event with the given id. -/
def AlarmClock.holds (ac : AlarmClock) (id : Int) : Bool :=
  (mapFind id ac.mEvents).isSome

/-- Whether any alarm clock of the queue holds a pending event with the given id. -/
def TimerQueue.holds (tq : TimerQueue) (id : Int) : Bool :=
  tq.mAlarmClocks.any (AlarmClock.holds · id)

/-- Structural well-formedness of the two containers: `std::map` keeps its keys
strictly sorted, `std::multimap` keeps its keys sorted. -/
def AlarmClock.wf (ac : AlarmClock) : Prop :=
  ac.mEvents.Pairwise (fun a b => a.1 < b.1) ∧
  ac.mTimeIndex.Pairwise (fun a b => a.1 ≤ b.1)

/-- Invariant A of the spec: every id in the id-map appears exactly once in the
deadline-map under its stored deadline, and every deadline-map entry has a matching
id-map entry under the same deadline. -/
def AlarmClock.consistent (ac : AlarmClock) : Prop :=
  (∀ p ∈ ac.mEvents, countPair (p.2.2, p.1) ac.mTimeIndex = 1) ∧
  (∀ q ∈ ac.mTimeIndex, (mapFind q.2 ac.mEvents).map Prod.snd = some q.1)

/-- The reachable-state invariant of one alarm clock. -/
def AlarmClock.inv (ac : AlarmClock) : Prop := ac.wf ∧ ac.consistent

instance (ac : AlarmClock) : Decidable ac.wf := by unfold AlarmClock.wf; infer_instance

instance (ac : AlarmClock) : Decidable ac.consistent := by
  unfold AlarmClock.consistent; infer_instance

instance (ac : AlarmClock) : Decidable ac.inv := by unfold AlarmClock.inv; infer_instance

/-- Invariant B of the spec, relative to the current `mRunning` value: the underlying
timer is armed to 1 when shutting down, else to the earliest held deadline, else
disarmed (0). -/
def AlarmClock.armedOk (running : Bool) (ac : AlarmClock) : Prop :=
  ac.armed =
    (if ¬ running then 1
     else
       match ac.mTimeIndex.head? with
       | some (t, _) => t
       | none => 0)

instance (running : Bool) (ac : AlarmClock) : Decidable (AlarmClock.armedOk running ac) := by
  unfold AlarmClock.armedOk; infer_instance

section MapLemmas

theorem mapFind_eq_none_iff {id : Int} {l : EventsMap} :
    mapFind id l = none ↔ ∀ p ∈ l, p.1 ≠ id := by
  induction l with
  | nil => simp [mapFind]
  | cons hd tl ih =>
    obtain ⟨k, v⟩ := hd
    by_cases hk : k = id
    · subst hk; simp [mapFind]
    · simp [mapFind, hk, ih]

theorem mapFind_isSome_of_mem {p : Int × Event × Int} {l : EventsMap}
    (h : p ∈ l) : mapFind p.1 l ≠ none := by
  intro hnone
  exact (mapFind_eq_none_iff.mp hnone) p h rfl

theorem mem_of_mapFind_eq_some {id : Int} {v : Event × Int} {l : EventsMap}
    (h : mapFind id l = some v) : (id, v) ∈ l := by
  induction l with
  | nil => simp [mapFind] at h
  | cons hd tl ih =>
    obtain ⟨k, w⟩ := hd
    by_cases hk : k = id
    · subst hk
      simp [mapFind] at h
      simp [h]
    · simp [mapFind, hk] at h
      exact List.mem_cons_of_mem _ (ih h)

theorem mem_mapInsert_of_mem {p : Int × Event × Int} {id : Int}
    {v : Event × Int} {l : EventsMap} (h : p ∈ l) : p ∈ mapInsert id v l := by
  induction l with
  | nil => simp at h
  | cons hd tl ih =>
    obtain ⟨k, w⟩ := hd
    rcases List.mem_cons.mp h with h₁ | h₁
    · subst h₁
      unfold mapInsert
      split
      · simp
      · split <;> simp
    · unfold mapInsert
      split
      · simp [h₁]
      · split
        · simp [h₁]
        · exact List.mem_cons_of_mem _ (ih h₁)

theorem mem_of_mem_mapInsert {p : Int × Event × Int} {id : Int}
    {v : Event × Int} {l : EventsMap} (h : p ∈ mapInsert id v l) :
    p = (id, v) ∨ p ∈ l := by
  induction l with
  | nil => simpa [mapInsert] using h
  | cons hd tl ih =>
    obtain ⟨k, w⟩ := hd
    unfold mapInsert at h
    split at h
    · rcases List.mem_cons.mp h with h₁ | h₁
      · exact Or.inl h₁
      · exact Or.inr h₁
    · split at h
      · exact Or.inr h
      · rcases List.mem_cons.mp h with h₁ | h₁
        · exact Or.inr (by simp [h₁])
        · rcases ih h₁ with h₂ | h₂
          · exact Or.inl h₂
          · exact Or.inr (List.mem_cons_of_mem _ h₂)

theorem mapFind_mapInsert_self {id : Int} {v : Event × Int} {l : EventsMap}
    (h : mapFind id l = none) : mapFind id (mapInsert id v l) = some v := by
  induction l with
  | nil => simp [mapInsert, mapFind]
  | cons hd tl ih =>
    obtain ⟨k, w⟩ := hd
    by_cases hk : k = id
    · subst hk; simp [mapFind] at h
    · simp [mapFind, hk] at h
      unfold mapInsert
      split
      · simp [mapFind]
      · split
        · omega
        · simp [mapFind, hk, ih h]

theorem mapFind_mapInsert_ne {id₂ id : Int} {v : Event × Int} {l : EventsMap}
    (h : id₂ ≠ id) : mapFind id₂ (mapInsert id v l) = mapFind id₂ l := by
  induction l with
  | nil => simp [mapInsert, mapFind, Ne.symm h]
  | cons hd tl ih =>
    obtain ⟨k, w⟩ := hd
    unfold mapInsert
    split
    · have : ¬ id = id₂ := fun hh => h hh.symm
      simp [mapFind, this]
    · split
      · rfl
      · by_cases hk : k = id₂
        · simp [mapFind, hk]
        · simp [mapFind, hk, ih]

theorem pairwise_mapInsert {id : Int} {v : Event × Int} {l : EventsMap}
    (h : l.Pairwise (fun a b => a.1 < b.1)) :
    (mapInsert id v l).Pairwise (fun a b => a.1 < b.1) := by
  induction l with
  | nil => simp [mapInsert]
  | cons hd tl ih =>
    obtain ⟨k, w⟩ := hd
    rw [List.pairwise_cons] at h
    unfold mapInsert
    split
    · rw [List.pairwise_cons]
      constructor
      · intro p hp
        rcases List.mem_cons.mp hp with h₁ | h₁
        · subst h₁; simpa using by assumption
        · have := h.1 p h₁
          simp only at this ⊢
          omega
      · exact List.pairwise_cons.mpr h
    · split
      · exact List.pairwise_cons.mpr h
      · rw [List.pairwise_cons]
        constructor
        · intro p hp
          rcases mem_of_mem_mapInsert hp with h₁ | h₁
          · subst h₁; simp only; omega
          · exact h.1 p h₁
        · exact ih h.2

theorem mapErase_sublist (id : Int) (l : EventsMap) :
    List.Sublist (mapErase id l) l := by
  induction l with
  | nil => simp [mapErase]
  | cons hd tl ih =>
    obtain ⟨k, w⟩ := hd
    unfold mapErase
    split
    · exact List.sublist_cons_self _ _
    · exact List.Sublist.cons₂ _ ih

theorem mapFind_mapErase_self {id : Int} {l : EventsMap}
    (h : l.Pairwise (fun a b => a.1 < b.1)) : mapFind id (mapErase id l) = none := by
  induction l with
  | nil => simp [mapErase, mapFind]
  | cons hd tl ih =>
    obtain ⟨k, w⟩ := hd
    rw [List.pairwise_cons] at h
    unfold mapErase
    split
    · rename_i hk
      rw [mapFind_eq_none_iff]
      intro p hp
      have := h.1 p hp
      simp only at this
      omega
    · rename_i hk
      simp [mapFind, hk, ih h.2]

theorem mapFind_mapErase_ne {id₂ id : Int} {l : EventsMap} (h : id₂ ≠ id) :
    mapFind id₂ (mapErase id l) = mapFind id₂ l := by
  induction l with
  | nil => simp [mapErase]
  | cons hd tl ih =>
    obtain ⟨k, w⟩ := hd
    unfold mapErase
    split
    · rename_i hk
      subst hk
      simp [mapFind, Ne.symm h]
    · by_cases hk₂ : k = id₂
      · simp [mapFind, hk₂]
      · simp [mapFind, hk₂, ih]

theorem mem_mapErase_of_ne {p : Int × Event × Int} {id : Int} {l : EventsMap}
    (hmem : p ∈ l) (hne : p.1 ≠ id) : p ∈ mapErase id l := by
  induction l with
  | nil => simp at hmem
  | cons hd tl ih =>
    obtain ⟨k, w⟩ := hd
    unfold mapErase
    split
    · rename_i hk
      rcases List.mem_cons.mp hmem with h₁ | h₁
      · exact absurd (by rw [h₁]; exact hk) hne
      · exact h₁
    · rcases List.mem_cons.mp hmem with h₁ | h₁
      · simp [h₁]
      · exact List.mem_cons_of_mem _ (ih h₁)

theorem pairwise_mapErase {id : Int} {l : EventsMap}
    (h : l.Pairwise (fun a b => a.1 < b.1)) :
    (mapErase id l).Pairwise (fun a b => a.1 < b.1) :=
  h.sublist (mapErase_sublist id l)

end MapLemmas

section MultimapLemmas

theorem countPair_cons_self (q : Int × Int) (l : TimeIndex) :
    countPair q (q :: l) = countPair q l + 1 := by
  show (if q = q then 1 else 0) + countPair q l = countPair q l + 1
  rw [if_pos rfl]
  omega

theorem countPair_cons_ne {hd q : Int × Int} (l : TimeIndex) (h : hd ≠ q) :
    countPair q (hd :: l) = countPair q l := by
  show (if hd = q then 1 else 0) + countPair q l = countPair q l
  rw [if_neg h]
  omega

theorem countPair_pos_iff {q : Int × Int} {l : TimeIndex} :
    0 < countPair q l ↔ q ∈ l := by
  induction l with
  | nil => simp [countPair]
  | cons hd tl ih =>
    by_cases h : hd = q
    · subst h; simp [countPair]
    · simp [countPair, h, ih, Ne.symm h]

theorem countPair_eq_zero_iff {q : Int × Int} {l : TimeIndex} :
    countPair q l = 0 ↔ q ∉ l := by
  rw [← countPair_pos_iff]
  omega

theorem countPair_mmInsert (q : Int × Int) (t id : Int) (l : TimeIndex) :
    countPair q (mmInsert t id l) = countPair q ((t, id) :: l) := by
  induction l with
  | nil => simp [mmInsert]
  | cons hd tl ih =>
    obtain ⟨t₂, i₂⟩ := hd
    unfold mmInsert
    split
    · rfl
    · simp only [countPair] at ih ⊢
      omega

theorem mem_mmInsert_iff {q : Int × Int} {t id : Int} {l : TimeIndex} :
    q ∈ mmInsert t id l ↔ q = (t, id) ∨ q ∈ l := by
  rw [← countPair_pos_iff, countPair_mmInsert]
  by_cases h : q = (t, id)
  · subst h
    rw [countPair_cons_self]
    constructor
    · intro _; exact Or.inl rfl
    · intro _; omega
  · rw [countPair_cons_ne l (Ne.symm h), countPair_pos_iff]
    simp [h]

theorem pairwise_mmInsert {t id : Int} {l : TimeIndex}
    (h : l.Pairwise (fun a b => a.1 ≤ b.1)) :
    (mmInsert t id l).Pairwise (fun a b => a.1 ≤ b.1) := by
  induction l with
  | nil => simp [mmInsert]
  | cons hd tl ih =>
    obtain ⟨t₂, i₂⟩ := hd
    rw [List.pairwise_cons] at h
    unfold mmInsert
    split
    · rename_i hlt
      rw [List.pairwise_cons]
      constructor
      · intro q hq
        rcases List.mem_cons.mp hq with h₁ | h₁
        · subst h₁; simp only; omega
        · have := h.1 q h₁
          simp only at this ⊢
          omega
      · exact List.pairwise_cons.mpr h
    · rename_i hge
      rw [List.pairwise_cons]
      constructor
      · intro q hq
        rcases mem_mmInsert_iff.mp hq with h₁ | h₁
        · subst h₁; simp only; omega
        · exact h.1 q h₁
      · exact ih h.2

theorem head?_mmInsert_nil (t id : Int) : (mmInsert t id []).head? = some (t, id) := by
  simp [mmInsert]

theorem head?_mmInsert_cons (t id t₂ i₂ : Int) (l : TimeIndex) :
    (mmInsert t id ((t₂, i₂) :: l)).head? =
      some (if t < t₂ then (t, id) else (t₂, i₂)) := by
  unfold mmInsert
  split <;> simp_all

theorem mmEraseFirst_sublist (t id : Int) (l : TimeIndex) :
    List.Sublist (mmEraseFirst t id l) l := by
  induction l with
  | nil => simp [mmEraseFirst]
  | cons hd tl ih =>
    obtain ⟨t₂, i₂⟩ := hd
    unfold mmEraseFirst
    split
    · exact List.sublist_cons_self _ _
    · split
      · exact List.Sublist.refl _
      · exact List.Sublist.cons₂ _ ih

theorem pairwise_mmEraseFirst {t id : Int} {l : TimeIndex}
    (h : l.Pairwise (fun a b => a.1 ≤ b.1)) :
    (mmEraseFirst t id l).Pairwise (fun a b => a.1 ≤ b.1) :=
  h.sublist (mmEraseFirst_sublist t id l)

theorem mem_of_mem_mmEraseFirst {q : Int × Int} {t id : Int} {l : TimeIndex}
    (h : q ∈ mmEraseFirst t id l) : q ∈ l :=
  (mmEraseFirst_sublist t id l).mem h

theorem countPair_mmEraseFirst_ne {q : Int × Int} {t id : Int} {l : TimeIndex}
    (h : q ≠ (t, id)) : countPair q (mmEraseFirst t id l) = countPair q l := by
  induction l with
  | nil => simp [mmEraseFirst]
  | cons hd tl ih =>
    obtain ⟨t₂, i₂⟩ := hd
    unfold mmEraseFirst
    split
    · rename_i heq
      have hne : ¬ ((t₂, i₂) = q) := by
        intro hc
        rw [← hc] at h
        exact h (by simp [heq.1, heq.2])
      simp [countPair, hne]
    · split
      · rfl
      · simp only [countPair, ih]

theorem countPair_mmEraseFirst_self {t id : Int} {l : TimeIndex}
    (hs : l.Pairwise (fun a b => a.1 ≤ b.1)) (hmem : (t, id) ∈ l) :
    countPair (t, id) (mmEraseFirst t id l) + 1 = countPair (t, id) l := by
  induction l with
  | nil => simp at hmem
  | cons hd tl ih =>
    obtain ⟨t₂, i₂⟩ := hd
    rw [List.pairwise_cons] at hs
    unfold mmEraseFirst
    split
    · rename_i heq
      have hhd : (t₂, i₂) = (t, id) := by simp [heq.1, heq.2]
      rw [hhd, countPair_cons_self]
    · rename_i hne
      have hhd : ¬ ((t₂, i₂) = (t, id)) := by
        intro hc
        have h1 : t₂ = t := (Prod.mk.injEq _ _ _ _ ▸ hc).1
        have h2 : i₂ = id := (Prod.mk.injEq _ _ _ _ ▸ hc).2
        exact hne ⟨h1, h2⟩
      have hmem₂ : (t, id) ∈ tl := by
        rcases List.mem_cons.mp hmem with h₁ | h₁
        · exact absurd h₁.symm hhd
        · exact h₁
      split
      · rename_i hlt
        have := hs.1 _ hmem₂
        simp only at this
        omega
      · rw [countPair_cons_ne _ hhd, countPair_cons_ne _ hhd]
        exact ih hs.2 hmem₂

end MultimapLemmas

section InvariantLemmas

/-- `AlarmClock.inv` phrased on the two containers alone (the timer state is
irrelevant to index consistency). -/
def pairInv (evs : EventsMap) (ti : TimeIndex) : Prop :=
  evs.Pairwise (fun a b => a.1 < b.1) ∧ ti.Pairwise (fun a b => a.1 ≤ b.1) ∧
  (∀ p ∈ evs, countPair (p.2.2, p.1) ti = 1) ∧
  (∀ q ∈ ti, (mapFind q.2 evs).map Prod.snd = some q.1)

theorem inv_iff_pairInv (ac : AlarmClock) : ac.inv ↔ pairInv ac.mEvents ac.mTimeIndex := by
  unfold AlarmClock.inv AlarmClock.wf AlarmClock.consistent pairInv
  tauto

theorem armedOk_armTimerForNextEvent (running : Bool) (ac : AlarmClock) :
    (AlarmClock.armTimerForNextEvent running ac).armedOk running := by
  simp [AlarmClock.armedOk, AlarmClock.armTimerForNextEvent]

/-- Freshly inserting an id absent from the id-map preserves index consistency
(`std::map::emplace` would silently not overwrite a present key). -/
theorem pairInv_insert {evs : EventsMap} {ti : TimeIndex} {t : Int} {e : Event}
    (h : pairInv evs ti) (hfresh : mapFind e.id evs = none) :
    pairInv (mapInsert e.id (e, t) evs) (mmInsert t e.id ti) := by
  obtain ⟨hwe, hwt, h1, h2⟩ := h
  refine ⟨pairwise_mapInsert hwe, pairwise_mmInsert hwt, ?_, ?_⟩
  · intro p hp
    rcases mem_of_mem_mapInsert hp with hpe | hpe
    · subst hpe
      have hnot : (t, e.id) ∉ ti := by
        intro hmem
        have := h2 _ hmem
        simp only at this
        rw [hfresh] at this
        simp at this
      rw [countPair_mmInsert]
      simp only
      rw [countPair_cons_self, countPair_eq_zero_iff.mpr hnot]
    · have hne : p.1 ≠ e.id := by
        intro hc
        have : mapFind p.1 evs ≠ none := mapFind_isSome_of_mem hpe
        rw [hc] at this
        exact this hfresh
      rw [countPair_mmInsert, countPair_cons_ne _ (by simp [Ne.symm hne]), h1 p hpe]
  · intro q hq
    rcases mem_mmInsert_iff.mp hq with hqe | hqe
    · subst hqe
      simp only
      rw [mapFind_mapInsert_self hfresh]
      rfl
    · have hne : q.2 ≠ e.id := by
        intro hc
        have := h2 _ hqe
        rw [hc, hfresh] at this
        simp at this
      rw [mapFind_mapInsert_ne hne]
      exact h2 _ hqe

theorem inv_add {running : Bool} {t : Int} {e : Event} {ac : AlarmClock}
    (h : ac.inv) (hfresh : mapFind e.id ac.mEvents = none) :
    (ac.add running t e).inv := by
  have hcore : pairInv (mapInsert e.id (e, t) ac.mEvents) (mmInsert t e.id ac.mTimeIndex) :=
    pairInv_insert ((inv_iff_pairInv ac).mp h) hfresh
  have hbr : ∀ (b : Bool) (ac₂ : AlarmClock), ac₂.inv →
      (if b = true then AlarmClock.armTimerForNextEvent running ac₂ else ac₂).inv := by
    intro b ac₂ h₂
    cases b
    · exact h₂
    · exact h₂
  exact hbr _ _ ((inv_iff_pairInv _).mpr hcore)

/-- Under consistency, a value found in the id-map for the id of some time-index
entry carries exactly that entry deadline, and erasing the head id keeps the rest
consistent.  The head entry is the only one carrying its id. -/
theorem pairInv_step {evs : EventsMap} {rest : TimeIndex} {t₀ i₀ t₂ : Int} {e : Event}
    (h : pairInv evs ((t₀, i₀) :: rest)) (hf : mapFind i₀ evs = some (e, t₂)) :
    t₂ = t₀ ∧ (∀ q ∈ rest, q.2 ≠ i₀) ∧ pairInv (mapErase i₀ evs) rest := by
  obtain ⟨hwe, hwt, h1, h2⟩ := h
  have hhead := h2 (t₀, i₀) (List.mem_cons_self _ _)
  simp only at hhead
  rw [hf] at hhead
  simp at hhead
  rw [hhead] at hf
  have hmem : (i₀, e, t₀) ∈ evs := mem_of_mapFind_eq_some hf
  have hcount : countPair (t₀, i₀) ((t₀, i₀) :: rest) = 1 := by
    have := h1 _ hmem
    simpa using this
  rw [countPair_cons_self] at hcount
  have hnot : (t₀, i₀) ∉ rest := countPair_eq_zero_iff.mp (by omega)
  have hno_i : ∀ q ∈ rest, q.2 ≠ i₀ := by
    rintro ⟨qt, qi⟩ hq hc
    simp only at hc
    subst hc
    have hm := h2 (qt, qi) (List.mem_cons_of_mem _ hq)
    simp only at hm
    rw [hf] at hm
    simp at hm
    have : qt = t₀ := by omega
    subst this
    exact hnot hq
  refine ⟨hhead, hno_i, pairwise_mapErase hwe, (List.pairwise_cons.mp hwt).2, ?_, ?_⟩
  · intro p hp
    have hpmem : p ∈ evs := (mapErase_sublist i₀ evs).mem hp
    have hne : p.1 ≠ i₀ := by
      intro hc
      have hnone : mapFind p.1 (mapErase i₀ evs) = none := by
        rw [hc]
        exact mapFind_mapErase_self hwe
      exact mapFind_isSome_of_mem hp hnone
    have := h1 p hpmem
    rw [countPair_cons_ne _ (by simp [Ne.symm hne])] at this
    exact this
  · intro q hq
    rw [mapFind_mapErase_ne (hno_i q hq)]
    exact h2 q (List.mem_cons_of_mem _ hq)

/-- C10 core fact: under the index-consistency invariant, an id present in the id-map
has its entry in the deadline index, so the index is non-empty. -/
theorem timeIndex_ne_nil_of_found {ac : AlarmClock} {id : Int} {v : Event × Int}
    (h : ac.inv) (hf : mapFind id ac.mEvents = some v) : ac.mTimeIndex ≠ [] := by
  obtain ⟨-, -, h1, -⟩ := (inv_iff_pairInv ac).mp h
  obtain ⟨e, t⟩ := v
  have hmem : (id, e, t) ∈ ac.mEvents := mem_of_mapFind_eq_some hf
  have hcnt := h1 _ hmem
  have hpos : (0 : Nat) < countPair (t, id) ac.mTimeIndex := by
    simp only at hcnt
    omega
  have hin := countPair_pos_iff.mp hpos
  intro hnil
  rw [hnil] at hin
  simp at hin

/-- Erasing a found id from both indexes preserves consistency. -/
theorem pairInv_erase {evs : EventsMap} {ti : TimeIndex} {id t : Int} {e : Event}
    (h : pairInv evs ti) (hf : mapFind id evs = some (e, t)) :
    pairInv (mapErase id evs) (mmEraseFirst t id ti) := by
  obtain ⟨hwe, hwt, h1, h2⟩ := h
  have hmem : (id, e, t) ∈ evs := mem_of_mapFind_eq_some hf
  have hcnt : countPair (t, id) ti = 1 := by
    have := h1 _ hmem
    simpa using this
  have htiMem : (t, id) ∈ ti := countPair_pos_iff.mp (by omega)
  have hzero : (t, id) ∉ mmEraseFirst t id ti := by
    have := countPair_mmEraseFirst_self hwt htiMem
    rw [hcnt] at this
    exact countPair_eq_zero_iff.mp (by omega)
  have hno_id : ∀ q ∈ mmEraseFirst t id ti, q.2 ≠ id := by
    rintro ⟨qt, qi⟩ hq hc
    simp only at hc
    subst hc
    have hqti : (qt, qi) ∈ ti := mem_of_mem_mmEraseFirst hq
    have hm := h2 (qt, qi) hqti
    simp only at hm
    rw [hf] at hm
    simp at hm
    have : qt = t := by omega
    subst this
    exact hzero hq
  refine ⟨pairwise_mapErase hwe, pairwise_mmEraseFirst hwt, ?_, ?_⟩
  · intro p hp
    have hpmem : p ∈ evs := (mapErase_sublist id evs).mem hp
    have hne : p.1 ≠ id := by
      intro hc
      have hnone : mapFind p.1 (mapErase id evs) = none := by
        rw [hc]
        exact mapFind_mapErase_self hwe
      exact mapFind_isSome_of_mem hp hnone
    have := h1 p hpmem
    rw [← @countPair_mmEraseFirst_ne (p.2.2, p.1) t id ti
      (by intro hc; exact hne ((Prod.mk.injEq _ _ _ _ ▸ hc).2))] at this
    exact this
  · intro q hq
    rw [mapFind_mapErase_ne (hno_id q hq)]
    exact h2 q (mem_of_mem_mmEraseFirst hq)

theorem remove_invalid (running : Bool) (ac : AlarmClock) :
    AlarmClock.remove running INVALID_EVENT_ID ac = some (false, ac) := by
  unfold AlarmClock.remove
  simp

theorem remove_not_found {id : Int} {ac : AlarmClock}
    (hf : mapFind id ac.mEvents = none) (running : Bool) :
    AlarmClock.remove running id ac = some (false, ac) := by
  unfold AlarmClock.remove
  split
  · rfl
  · rw [hf]

/-- Case analysis on a non-UB `AlarmClock::remove`: either nothing was found and the
state is untouched, or the entry was erased from both indexes. -/
theorem remove_cases {running : Bool} {id : Int} {ac : AlarmClock} {b : Bool}
    {ac₂ : AlarmClock} (hr : AlarmClock.remove running id ac = some (b, ac₂)) :
    (b = false ∧ ac₂ = ac) ∨
    (b = true ∧ ∃ e t, mapFind id ac.mEvents = some (e, t) ∧ id ≠ INVALID_EVENT_ID ∧
      ac₂.mEvents = mapErase id ac.mEvents ∧
      ac₂.mTimeIndex = mmEraseFirst t id ac.mTimeIndex) := by
  by_cases hid : id = INVALID_EVENT_ID
  · rw [hid, remove_invalid] at hr
    have h₂ := Option.some.inj hr
    exact Or.inl ⟨(Prod.mk.injEq _ _ _ _ ▸ h₂).1.symm, (Prod.mk.injEq _ _ _ _ ▸ h₂).2.symm⟩
  · cases hfind : mapFind id ac.mEvents with
    | none =>
      rw [remove_not_found hfind] at hr
      have h₂ := Option.some.inj hr
      exact Or.inl ⟨(Prod.mk.injEq _ _ _ _ ▸ h₂).1.symm, (Prod.mk.injEq _ _ _ _ ▸ h₂).2.symm⟩
    | some v =>
      obtain ⟨e, t⟩ := v
      cases hh : ac.mTimeIndex.head? with
      | none =>
        have hnone : AlarmClock.remove running id ac = none := by
          unfold AlarmClock.remove
          rw [if_neg hid, hfind, hh]
        rw [hnone] at hr
        exact absurd hr (by simp)
      | some q =>
        obtain ⟨t₀, i₀⟩ := q
        have hrw : AlarmClock.remove running id ac = some (true,
            if i₀ = id then
              AlarmClock.armTimerForNextEvent running
                { ac with mEvents := mapErase id ac.mEvents
                          mTimeIndex := mmEraseFirst t id ac.mTimeIndex }
            else
              { ac with mEvents := mapErase id ac.mEvents
                        mTimeIndex := mmEraseFirst t id ac.mTimeIndex }) := by
          unfold AlarmClock.remove
          rw [if_neg hid, hfind, hh]
        rw [hrw] at hr
        have h₂ := Option.some.inj hr
        have hb : b = true := (Prod.mk.injEq _ _ _ _ ▸ h₂).1.symm
        have hac : ac₂ = _ := (Prod.mk.injEq _ _ _ _ ▸ h₂).2.symm
        refine Or.inr ⟨hb, e, t, rfl, hid, ?_, ?_⟩
        · rw [hac]
          by_cases hw : i₀ = id <;> simp [hw, AlarmClock.armTimerForNextEvent]
        · rw [hac]
          by_cases hw : i₀ = id <;> simp [hw, AlarmClock.armTimerForNextEvent]

theorem inv_remove {running : Bool} {id : Int} {ac : AlarmClock} {b : Bool}
    {ac₂ : AlarmClock} (h : ac.inv) (hr : AlarmClock.remove running id ac = some (b, ac₂)) :
    ac₂.inv := by
  rcases remove_cases hr with ⟨-, rfl⟩ | ⟨-, e, t, hf, -, hev, hti⟩
  · exact h
  · rw [inv_iff_pairInv, hev, hti]
    exact pairInv_erase ((inv_iff_pairInv ac).mp h) hf

/-- C10: under the invariant `AlarmClock::remove` never reaches the
`mTimeIndex.begin()` dereference with an empty index. -/
theorem remove_ne_none {running : Bool} {id : Int} {ac : AlarmClock} (h : ac.inv) :
    AlarmClock.remove running id ac ≠ none := by
  by_cases hid : id = INVALID_EVENT_ID
  · rw [hid, remove_invalid]
    simp
  · cases hfind : mapFind id ac.mEvents with
    | none =>
      rw [remove_not_found hfind]
      simp
    | some v =>
      obtain ⟨e, t⟩ := v
      cases hh : ac.mTimeIndex.head? with
      | none =>
        exact absurd (List.head?_eq_none_iff.mp hh) (timeIndex_ne_nil_of_found h hfind)
      | some q =>
        obtain ⟨t₀, i₀⟩ := q
        unfold AlarmClock.remove
        rw [if_neg hid, hfind, hh]
        simp

/-- Erasing a non-head entry leaves the head of the deadline index unchanged. -/
theorem head?_mmEraseFirst_of_ne {t id t₀ i₀ : Int} {rest : TimeIndex} (h : i₀ ≠ id) :
    (mmEraseFirst t id ((t₀, i₀) :: rest)).head? = some (t₀, i₀) := by
  unfold mmEraseFirst
  have hc : ¬ (t₀ = t ∧ i₀ = id) := fun hp => h hp.2
  rw [if_neg hc]
  split <;> rfl

theorem armedOk_add {running : Bool} {t : Int} {e : Event} {ac : AlarmClock}
    (h : ac.armedOk running) : (ac.add running t e).armedOk running := by
  unfold AlarmClock.add
  cases hti : ac.mTimeIndex with
  | nil =>
    simp only [hti, List.head?]
    exact armedOk_armTimerForNextEvent running _
  | cons q rest =>
    obtain ⟨t₀, i₀⟩ := q
    simp only [hti, List.head?]
    by_cases hlt : t < t₀
    · rw [if_pos (decide_eq_true hlt)]
      exact armedOk_armTimerForNextEvent running _
    · rw [if_neg (by simpa using hlt)]
      show AlarmClock.armedOk running
        { ac with
          mEvents := mapInsert e.id (e, t) ac.mEvents
          mTimeIndex := mmInsert t e.id ((t₀, i₀) :: rest) }
      unfold AlarmClock.armedOk at h ⊢
      simp only
      rw [head?_mmInsert_cons, if_neg hlt]
      rw [hti] at h
      simpa [List.head?] using h

theorem armedOk_remove {running : Bool} {id : Int} {ac : AlarmClock} {b : Bool}
    {ac₂ : AlarmClock} (h : ac.armedOk running)
    (hr : AlarmClock.remove running id ac = some (b, ac₂)) : ac₂.armedOk running := by
  by_cases hid : id = INVALID_EVENT_ID
  · rw [hid, remove_invalid] at hr
    have h₂ := Option.some.inj hr
    have hac : ac = ac₂ := congrArg Prod.snd h₂
    rw [← hac]
    exact h
  · cases hfind : mapFind id ac.mEvents with
    | none =>
      rw [remove_not_found hfind] at hr
      have h₂ := Option.some.inj hr
      have hac : ac = ac₂ := congrArg Prod.snd h₂
      rw [← hac]
      exact h
    | some v =>
      obtain ⟨e, t⟩ := v
      cases hti : ac.mTimeIndex with
      | nil =>
        have hnone : AlarmClock.remove running id ac = none := by
          unfold AlarmClock.remove
          rw [if_neg hid, hfind, hti]
          rfl
        rw [hnone] at hr
        exact absurd hr (by simp)
      | cons q rest =>
        obtain ⟨t₀, i₀⟩ := q
        have hrw : AlarmClock.remove running id ac = some (true,
            if i₀ = id then
              AlarmClock.armTimerForNextEvent running
                { ac with mEvents := mapErase id ac.mEvents
                          mTimeIndex := mmEraseFirst t id ac.mTimeIndex }
            else
              { ac with mEvents := mapErase id ac.mEvents
                        mTimeIndex := mmEraseFirst t id ac.mTimeIndex }) := by
          unfold AlarmClock.remove
          rw [if_neg hid, hfind, hti]
          rfl
        rw [hrw] at hr
        have h₂ := Option.some.inj hr
        have hac : ac₂ = _ := (Prod.mk.injEq _ _ _ _ ▸ h₂).2.symm
        by_cases hw : i₀ = id
        · rw [hac, if_pos hw]
          exact armedOk_armTimerForNextEvent running _
        · rw [hac, if_neg hw]
          unfold AlarmClock.armedOk at h ⊢
          simp only
          rw [hti]
          rw [head?_mmEraseFirst_of_ne hw]
          rw [hti] at h
          simpa [List.head?] using h

theorem armedOk_collectEvents (running : Bool) (now : Int) (out : List Event)
    (ac : AlarmClock) : ((ac.collectEvents running now out).2).armedOk running :=
  armedOk_armTimerForNextEvent running _

theorem armedOk_removeEvents {running : Bool} :
    ∀ {events : List Event} {ac ac₂ : AlarmClock}, ac.armedOk running →
      AlarmClock.removeEvents running events ac = some ac₂ → ac₂.armedOk running := by
  intro events
  induction events with
  | nil =>
    intro ac ac₂ h hr
    exact (Option.some.inj hr) ▸ h
  | cons e rest ih =>
    intro ac ac₂ h hr
    unfold AlarmClock.removeEvents at hr
    cases hrem : ac.remove running e.id with
    | none =>
      rw [hrem] at hr
      exact absurd hr (by simp)
    | some p =>
      obtain ⟨b, ac₁⟩ := p
      rw [hrem] at hr
      exact ih (armedOk_remove h hrem) hr

theorem pairInv_collectLoop {now : Int} :
    ∀ (ti : TimeIndex) (evs : EventsMap) (out : List Event), pairInv evs ti →
      pairInv (collectLoop now ti evs out).2.1 (collectLoop now ti evs out).1 := by
  intro ti
  induction ti with
  | nil =>
    intro evs out h
    exact h
  | cons q rest ih =>
    obtain ⟨t, id⟩ := q
    intro evs out h
    unfold collectLoop
    by_cases hle : t ≤ now
    · rw [if_pos hle]
      cases hf : mapFind id evs with
      | none =>
        exfalso
        have hd2 := h.2.2.2 (t, id) (List.mem_cons_self _ _)
        simp only at hd2
        rw [hf] at hd2
        simp at hd2
      | some v =>
        obtain ⟨e, t₂⟩ := v
        exact ih _ _ (pairInv_step h hf).2.2
    · rw [if_neg hle]
      exact h

theorem inv_collectEvents {running : Bool} {now : Int} {out : List Event} {ac : AlarmClock}
    (h : ac.inv) : ((ac.collectEvents running now out).2).inv := by
  rw [inv_iff_pairInv]
  exact pairInv_collectLoop _ _ _ ((inv_iff_pairInv ac).mp h)

theorem removeEvents_some_inv {running : Bool} :
    ∀ {events : List Event} {ac : AlarmClock}, ac.inv →
      ∃ ac₂, AlarmClock.removeEvents running events ac = some ac₂ ∧ ac₂.inv := by
  intro events
  induction events with
  | nil =>
    intro ac h
    exact ⟨ac, rfl, h⟩
  | cons e rest ih =>
    intro ac h
    cases hrem : ac.remove running e.id with
    | none => exact absurd hrem (remove_ne_none h)
    | some p =>
      obtain ⟨b, ac₁⟩ := p
      obtain ⟨ac₂, hr₂, hinv₂⟩ := ih (inv_remove h hrem)
      refine ⟨ac₂, ?_, hinv₂⟩
      unfold AlarmClock.removeEvents
      rw [hrem]
      exact hr₂

end InvariantLemmas

section CollectLemmas

theorem mem_setInsert_self (e : Event) (s : List Event) : e ∈ setInsert e s := by
  unfold setInsert
  split
  · assumption
  · simp

theorem mem_setInsert_of_mem {f : Event} (e : Event) {s : List Event} (h : f ∈ s) :
    f ∈ setInsert e s := by
  unfold setInsert
  split
  · exact h
  · simp [h]

theorem nodup_setInsert (e : Event) {s : List Event} (h : s.Nodup) :
    (setInsert e s).Nodup := by
  unfold setInsert
  split
  · exact h
  · rename_i hn
    rw [List.nodup_append]
    refine ⟨h, List.nodup_singleton e, ?_⟩
    intro a ha hae
    rw [List.mem_singleton] at hae
    exact hn (hae ▸ ha)

theorem mapFind_mapErase_none {id id₂ : Int} {evs : EventsMap}
    (h : mapFind id evs = none) : mapFind id (mapErase id₂ evs) = none := by
  rw [mapFind_eq_none_iff] at h ⊢
  intro p hp
  exact h p ((mapErase_sublist id₂ evs).mem hp)

theorem collectLoop_out_mono {now : Int} {f : Event} :
    ∀ (ti : TimeIndex) (evs : EventsMap) (out : List Event), f ∈ out →
      f ∈ (collectLoop now ti evs out).2.2 := by
  intro ti
  induction ti with
  | nil =>
    intro evs out h
    exact h
  | cons q rest ih =>
    obtain ⟨t, id⟩ := q
    intro evs out h
    unfold collectLoop
    by_cases hle : t ≤ now
    · rw [if_pos hle]
      cases hf : mapFind id evs with
      | none => exact ih _ _ h
      | some v =>
        obtain ⟨e, t₂⟩ := v
        exact ih _ _ (mem_setInsert_of_mem e h)
    · rw [if_neg hle]
      exact h

theorem collectLoop_nodup {now : Int} :
    ∀ (ti : TimeIndex) (evs : EventsMap) (out : List Event), out.Nodup →
      (collectLoop now ti evs out).2.2.Nodup := by
  intro ti
  induction ti with
  | nil =>
    intro evs out h
    exact h
  | cons q rest ih =>
    obtain ⟨t, id⟩ := q
    intro evs out h
    unfold collectLoop
    by_cases hle : t ≤ now
    · rw [if_pos hle]
      cases hf : mapFind id evs with
      | none => exact ih _ _ h
      | some v =>
        obtain ⟨e, t₂⟩ := v
        exact ih _ _ (nodup_setInsert e h)
    · rw [if_neg hle]
      exact h

theorem collectLoop_ti_mem {now : Int} {q : Int × Int} :
    ∀ (ti : TimeIndex) (evs : EventsMap) (out : List Event),
      q ∈ (collectLoop now ti evs out).1 → q ∈ ti := by
  intro ti
  induction ti with
  | nil =>
    intro evs out h
    exact h
  | cons q₀ rest ih =>
    obtain ⟨t, id⟩ := q₀
    intro evs out h
    unfold collectLoop at h
    by_cases hle : t ≤ now
    · rw [if_pos hle] at h
      cases hf : mapFind id evs with
      | none =>
        rw [hf] at h
        exact List.mem_cons_of_mem _ (ih _ _ h)
      | some v =>
        obtain ⟨e, t₂⟩ := v
        rw [hf] at h
        exact List.mem_cons_of_mem _ (ih _ _ h)
    · rw [if_neg hle] at h
      exact h

theorem collectLoop_find_none_mono {now id : Int} :
    ∀ (ti : TimeIndex) (evs : EventsMap) (out : List Event), mapFind id evs = none →
      mapFind id (collectLoop now ti evs out).2.1 = none := by
  intro ti
  induction ti with
  | nil =>
    intro evs out h
    exact h
  | cons q rest ih =>
    obtain ⟨t, i⟩ := q
    intro evs out h
    unfold collectLoop
    by_cases hle : t ≤ now
    · rw [if_pos hle]
      cases hf : mapFind i evs with
      | none => exact ih _ _ h
      | some v =>
        obtain ⟨e, t₂⟩ := v
        exact ih _ _ (mapFind_mapErase_none h)
    · rw [if_neg hle]
      exact h

/-- Under consistency an id found in the id-map has its entry in the deadline index. -/
theorem tiMem_of_found {evs : EventsMap} {ti : TimeIndex} {id t : Int} {e : Event}
    (h : pairInv evs ti) (hf : mapFind id evs = some (e, t)) : (t, id) ∈ ti := by
  have hmem : (id, e, t) ∈ evs := mem_of_mapFind_eq_some hf
  have := h.2.2.1 _ hmem
  exact countPair_pos_iff.mp (by simp only at this; omega)

/-- The collection loop collects every due event: its event value lands in the output
set and both of its index entries are gone afterwards. -/
theorem collectLoop_collects {now : Int} :
    ∀ (ti : TimeIndex) (evs : EventsMap) (out : List Event) {e : Event} {id t : Int},
      pairInv evs ti → mapFind id evs = some (e, t) → (t, id) ∈ ti → t ≤ now →
      e ∈ (collectLoop now ti evs out).2.2 ∧
      mapFind id (collectLoop now ti evs out).2.1 = none ∧
      (∀ q ∈ (collectLoop now ti evs out).1, q.2 ≠ id) := by
  intro ti
  induction ti with
  | nil =>
    intro evs out e id t h hf hmem hle
    simp at hmem
  | cons q₀ rest ih =>
    obtain ⟨t₀, i₀⟩ := q₀
    intro evs out e id t h hf hmem hle
    have hle₀ : t₀ ≤ now := by
      rcases List.mem_cons.mp hmem with hh | hh
      · have h1 : t = t₀ := (Prod.mk.injEq _ _ _ _ ▸ hh).1
        omega
      · have := (List.pairwise_cons.mp h.2.1).1 _ hh
        simp only at this
        omega
    unfold collectLoop
    rw [if_pos hle₀]
    cases hf₀ : mapFind i₀ evs with
    | none =>
      exfalso
      have hd2 := h.2.2.2 (t₀, i₀) (List.mem_cons_self _ _)
      simp only at hd2
      rw [hf₀] at hd2
      simp at hd2
    | some v =>
      obtain ⟨e₀, t₂⟩ := v
      obtain ⟨ht₂, hno_i, hinv₂⟩ := pairInv_step h hf₀
      by_cases hii : i₀ = id
      · subst hii
        rw [hf] at hf₀
        have hpair := Option.some.inj hf₀
        have he : e = e₀ := (Prod.mk.injEq _ _ _ _ ▸ hpair).1
        refine ⟨?_, ?_, ?_⟩
        · apply collectLoop_out_mono
          rw [he]
          exact mem_setInsert_self e₀ out
        · apply collectLoop_find_none_mono
          exact mapFind_mapErase_self h.1
        · intro q hq
          exact hno_i q (collectLoop_ti_mem _ _ _ hq)
      · have hmem₂ : (t, id) ∈ rest := by
          rcases List.mem_cons.mp hmem with hh | hh
          · exfalso
            have : id = i₀ := (Prod.mk.injEq _ _ _ _ ▸ hh).2
            exact hii this.symm
          · exact hh
        have hf₂ : mapFind id (mapErase i₀ evs) = some (e, t) := by
          rw [mapFind_mapErase_ne (fun hc => hii hc.symm)]
          exact hf
        exact ih _ _ hinv₂ hf₂ hmem₂ hle

end CollectLemmas

section SortLemmas

theorem insertByPriority_perm (e : Event) (l : List Event) :
    (insertByPriority e l).Perm (e :: l) := by
  induction l with
  | nil => exact List.Perm.refl _
  | cons f rest ih =>
    unfold insertByPriority
    split
    · exact List.Perm.refl _
    · exact (List.Perm.cons f ih).trans (List.Perm.swap _ _ _)

theorem sortByPriority_perm (l : List Event) : (sortByPriority l).Perm l := by
  induction l with
  | nil => exact List.Perm.refl _
  | cons e rest ih =>
    exact (insertByPriority_perm e _).trans (List.Perm.cons e ih)

theorem sorted_insertByPriority {e : Event} {l : List Event}
    (h : l.Pairwise (fun a b => a.priorityTime ≤ b.priorityTime)) :
    (insertByPriority e l).Pairwise (fun a b => a.priorityTime ≤ b.priorityTime) := by
  induction l with
  | nil => simp [insertByPriority]
  | cons f rest ih =>
    rw [List.pairwise_cons] at h
    unfold insertByPriority
    split
    · rename_i hle
      rw [List.pairwise_cons]
      constructor
      · intro b hb
        rcases List.mem_cons.mp hb with h₁ | h₁
        · subst h₁
          exact hle
        · have := h.1 b h₁
          omega
      · exact List.pairwise_cons.mpr h
    · rename_i hgt
      rw [List.pairwise_cons]
      constructor
      · intro b hb
        rcases List.mem_cons.mp ((insertByPriority_perm e rest).mem_iff.mp hb) with h₁ | h₁
        · subst h₁
          omega
        · exact h.1 b h₁
      · exact ih h.2

theorem sorted_sortByPriority (l : List Event) :
    (sortByPriority l).Pairwise (fun a b => a.priorityTime ≤ b.priorityTime) := by
  induction l with
  | nil => simp [sortByPriority]
  | cons e rest ih => exact sorted_insertByPriority ih

end SortLemmas

section AbsenceLemmas

theorem remove_preserves_absent {running : Bool} {id₂ id : Int} {ac : AlarmClock}
    {b : Bool} {ac₂ : AlarmClock} (hr : AlarmClock.remove running id₂ ac = some (b, ac₂))
    (hev : mapFind id ac.mEvents = none) (hti : ∀ q ∈ ac.mTimeIndex, q.2 ≠ id) :
    mapFind id ac₂.mEvents = none ∧ ∀ q ∈ ac₂.mTimeIndex, q.2 ≠ id := by
  rcases remove_cases hr with ⟨-, rfl⟩ | ⟨-, e, t, hf, -, hevf, htif⟩
  · exact ⟨hev, hti⟩
  · constructor
    · rw [hevf]
      exact mapFind_mapErase_none hev
    · intro q hq
      rw [htif] at hq
      exact hti q (mem_of_mem_mmEraseFirst hq)

theorem removeEvents_preserves_absent {running : Bool} {id : Int} :
    ∀ {events : List Event} {ac ac₂ : AlarmClock},
      AlarmClock.removeEvents running events ac = some ac₂ →
      mapFind id ac.mEvents = none → (∀ q ∈ ac.mTimeIndex, q.2 ≠ id) →
      mapFind id ac₂.mEvents = none ∧ ∀ q ∈ ac₂.mTimeIndex, q.2 ≠ id := by
  intro events
  induction events with
  | nil =>
    intro ac ac₂ hr hev hti
    rw [← Option.some.inj hr]
    exact ⟨hev, hti⟩
  | cons e rest ih =>
    intro ac ac₂ hr hev hti
    unfold AlarmClock.removeEvents at hr
    cases hrem : ac.remove running e.id with
    | none =>
      rw [hrem] at hr
      exact absurd hr (by simp)
    | some p =>
      obtain ⟨b, ac₁⟩ := p
      rw [hrem] at hr
      obtain ⟨hev₂, hti₂⟩ := remove_preserves_absent hrem hev hti
      exact ih hr hev₂ hti₂

end AbsenceLemmas

section DispatchLemmas

theorem collectEvents_fst (running : Bool) (now : Int) (out : List Event) (ac : AlarmClock) :
    (ac.collectEvents running now out).1 =
      (collectLoop now ac.mTimeIndex ac.mEvents out).2.2 := rfl

theorem collectEvents_snd_mEvents (running : Bool) (now : Int) (out : List Event)
    (ac : AlarmClock) :
    ((ac.collectEvents running now out).2).mEvents =
      (collectLoop now ac.mTimeIndex ac.mEvents out).2.1 := rfl

theorem collectEvents_snd_mTimeIndex (running : Bool) (now : Int) (out : List Event)
    (ac : AlarmClock) :
    ((ac.collectEvents running now out).2).mTimeIndex =
      (collectLoop now ac.mTimeIndex ac.mEvents out).1 := rfl

theorem collectAll_two (running : Bool) (now : Int) (c0 c1 : AlarmClock)
    (out : List Event) :
    collectAll running now [c0, c1] out =
      ([(c0.collectEvents running now out).2,
        (c1.collectEvents running now (c0.collectEvents running now out).1).2],
       (c1.collectEvents running now (c0.collectEvents running now out).1).1) := rfl

theorem removeEventsAll_two {running : Bool} {events : List Event} {c0 c1 c0₂ c1₂ : AlarmClock}
    (h0 : c0.removeEvents running events = some c0₂)
    (h1 : c1.removeEvents running events = some c1₂) :
    removeEventsAll running events [c0, c1] = some [c0₂, c1₂] := by
  unfold removeEventsAll
  rw [h0]
  unfold removeEventsAll
  rw [h1]
  rfl

/-- Reduction of one dispatch pass for the two-clock (alarm mode) configuration. -/
theorem dispatchPass_two {tq : TimerQueue} {now : Int} {c0 c1 : AlarmClock}
    (halarm : tq.mAlarmClocks = [c0, c1]) (hrun : tq.mRunning = true)
    {c0₃ c1₃ : AlarmClock}
    (hrem : removeEventsAll true
        ((c1.collectEvents true now (c0.collectEvents true now []).1).1)
        [(c0.collectEvents true now []).2,
         (c1.collectEvents true now (c0.collectEvents true now []).1).2] = some [c0₃, c1₃]) :
    tq.dispatchPass now = some
      (sortByPriority ((c1.collectEvents true now (c0.collectEvents true now []).1).1),
       { tq with mAlarmClocks := [c0₃, c1₃] }) := by
  unfold TimerQueue.dispatchPass
  rw [hrun, halarm]
  rw [if_neg (by simp)]
  rw [collectAll_two]
  dsimp only
  rw [hrem]

theorem add_mEvents (running : Bool) (t : Int) (e : Event) (ac : AlarmClock) :
    (ac.add running t e).mEvents = mapInsert e.id (e, t) ac.mEvents := by
  unfold AlarmClock.add
  split
  · rfl
  · dsimp only
    split <;> rfl

theorem add_mTimeIndex (running : Bool) (t : Int) (e : Event) (ac : AlarmClock) :
    (ac.add running t e).mTimeIndex = mmInsert t e.id ac.mTimeIndex := by
  unfold AlarmClock.add
  split
  · rfl
  · dsimp only
    split <;> rfl

/-- Reduction of the dual-deadline add in alarm mode on a ready clock. -/
theorem addDual_alarm_eq {tq : TimerQueue} {c0 c1 : AlarmClock} {soft hard prio : Int}
    (hready : tq.clockReady = true) (halarm : tq.mAlarm = true)
    (hclocks : tq.mAlarmClocks = [c0, c1]) :
    tq.addDual true soft hard prio =
      (tq.mNextEventId,
       { tq with
         mNextEventId := if tq.mNextEventId = INT64_MAX then 1 else tq.mNextEventId + 1
         mAlarmClocks :=
           [c0.add tq.mRunning soft ⟨tq.mNextEventId, if prio ≥ 0 then prio else hard⟩,
            c1.add tq.mRunning hard ⟨tq.mNextEventId, if prio ≥ 0 then prio else hard⟩] }) := by
  unfold TimerQueue.addDual TimerQueue.getNextEventId_l
  rw [hready, halarm, hclocks]
  rw [if_neg (by simp)]
  rfl

/-- Reduction of the dual-deadline add without alarm mode on a ready clock. -/
theorem addDual_noalarm_eq {tq : TimerQueue} {c0 : AlarmClock} {soft hard prio : Int}
    (hready : tq.clockReady = true) (halarm : tq.mAlarm = false)
    (hclocks : tq.mAlarmClocks = [c0]) :
    tq.addDual true soft hard prio =
      (tq.mNextEventId,
       { tq with
         mNextEventId := if tq.mNextEventId = INT64_MAX then 1 else tq.mNextEventId + 1
         mAlarmClocks :=
           [c0.add tq.mRunning soft ⟨tq.mNextEventId, if prio ≥ 0 then prio else hard⟩] }) := by
  unfold TimerQueue.addDual TimerQueue.getNextEventId_l
  rw [hready, halarm, hclocks]
  rw [if_neg (by simp)]
  rfl

/-- Reduction of the single-deadline add on a ready clock. -/
theorem add_eq {tq : TimerQueue} {t : Int} (hready : tq.clockReady = true) :
    tq.add true t =
      (tq.mNextEventId,
       { tq with
         mNextEventId := if tq.mNextEventId = INT64_MAX then 1 else tq.mNextEventId + 1
         mAlarmClocks :=
           updateClock (if tq.mAlarm then 1 else 0)
             (AlarmClock.add tq.mRunning t ⟨tq.mNextEventId, t⟩) tq.mAlarmClocks }) := by
  unfold TimerQueue.add TimerQueue.getNextEventId_l
  rw [hready]
  rw [if_neg (by simp)]

/-- A found, valid id is removed: erased from both indexes and reported true. -/
theorem remove_found {running : Bool} {id : Int} {ac : AlarmClock} {e : Event} {t : Int}
    (hinv : ac.inv) (hf : mapFind id ac.mEvents = some (e, t))
    (hid : id ≠ INVALID_EVENT_ID) :
    ∃ ac₂, AlarmClock.remove running id ac = some (true, ac₂) ∧
      ac₂.mEvents = mapErase id ac.mEvents ∧
      ac₂.mTimeIndex = mmEraseFirst t id ac.mTimeIndex := by
  cases hti : ac.mTimeIndex with
  | nil => exact absurd hti (timeIndex_ne_nil_of_found hinv hf)
  | cons q rest =>
    obtain ⟨t₀, i₀⟩ := q
    have hrw : AlarmClock.remove running id ac = some (true,
        if i₀ = id then
          AlarmClock.armTimerForNextEvent running
            { ac with mEvents := mapErase id ac.mEvents
                      mTimeIndex := mmEraseFirst t id ac.mTimeIndex }
        else
          { ac with mEvents := mapErase id ac.mEvents
                    mTimeIndex := mmEraseFirst t id ac.mTimeIndex }) := by
      unfold AlarmClock.remove
      rw [if_neg hid, hf, hti]
      rfl
    refine ⟨_, hrw, ?_, ?_⟩
    · by_cases hw : i₀ = id
      · rw [if_pos hw]
        rfl
      · rw [if_neg hw]
    · by_cases hw : i₀ = id
      · rw [if_pos hw]
        show mmEraseFirst t id ac.mTimeIndex = mmEraseFirst t id ((t₀, i₀) :: rest)
        rw [hti]
      · rw [if_neg hw]
        show mmEraseFirst t id ac.mTimeIndex = mmEraseFirst t id ((t₀, i₀) :: rest)
        rw [hti]

/-- Summary of one `AlarmClock::remove` under the invariant: the result reports
whether the id was held, leaves the clock untouched when it was not, and never
leaves the id behind. -/
theorem remove_spec_clock {running : Bool} {id : Int} {ac : AlarmClock}
    (hinv : ac.inv) (hid : id ≠ INVALID_EVENT_ID) :
    ∃ b ac₂, AlarmClock.remove running id ac = some (b, ac₂) ∧
      b = (mapFind id ac.mEvents).isSome ∧
      (mapFind id ac.mEvents = none → ac₂ = ac) ∧
      mapFind id ac₂.mEvents = none := by
  cases hf : mapFind id ac.mEvents with
  | none =>
    exact ⟨false, ac, remove_not_found hf running, rfl, fun _ => rfl, hf⟩
  | some v =>
    obtain ⟨e, t⟩ := v
    obtain ⟨ac₂, hr, hev, -⟩ := @remove_found running id ac e t hinv hf hid
    refine ⟨true, ac₂, hr, rfl, fun hc => absurd hc (by simp), ?_⟩
    rw [hev]
    exact mapFind_mapErase_self hinv.1.1

/-- The loop of `TimerQueue::remove` over the clock vector, summarised. -/
theorem removeFromClocks_spec {running : Bool} {id : Int} (hid : id ≠ INVALID_EVENT_ID) :
    ∀ {clocks : List AlarmClock}, (∀ c ∈ clocks, c.inv) →
      ∃ found clocks₂, removeFromClocks running id clocks = some (found, clocks₂) ∧
        (found = true ↔ ∃ c ∈ clocks, (mapFind id c.mEvents).isSome = true) ∧
        ((∀ c ∈ clocks, mapFind id c.mEvents = none) → clocks₂ = clocks) ∧
        (∀ c ∈ clocks₂, mapFind id c.mEvents = none) := by
  intro clocks
  induction clocks with
  | nil =>
    intro _
    exact ⟨false, [], rfl, by simp, fun _ => rfl, by simp⟩
  | cons c rest ih =>
    intro hinv
    obtain ⟨b₁, c₂, hr₁, hb₁, hunch₁, habs₁⟩ :=
      @remove_spec_clock running id c (hinv c (List.mem_cons_self _ _)) hid
    obtain ⟨bR, clocksR, hrR, hbR, hunchR, habsR⟩ :=
      ih (fun c₃ hc₃ => hinv c₃ (List.mem_cons_of_mem _ hc₃))
    refine ⟨b₁ || bR, c₂ :: clocksR, ?_, ?_, ?_, ?_⟩
    · unfold removeFromClocks
      rw [hr₁, hrR]
    · rw [Bool.or_eq_true, hb₁, hbR]
      constructor
      · intro hor
        rcases hor with hh | hh
        · exact ⟨c, List.mem_cons_self _ _, hh⟩
        · obtain ⟨c₃, hc₃, hfind⟩ := hh
          exact ⟨c₃, List.mem_cons_of_mem _ hc₃, hfind⟩
      · rintro ⟨c₃, hc₃, hfind⟩
        rcases List.mem_cons.mp hc₃ with hh | hh
        · exact Or.inl (hh ▸ hfind)
        · exact Or.inr ⟨c₃, hh, hfind⟩
    · intro hall
      rw [hunch₁ (hall c (List.mem_cons_self _ _)),
        hunchR (fun c₃ hc₃ => hall c₃ (List.mem_cons_of_mem _ hc₃))]
    · intro c₃ hc₃
      rcases List.mem_cons.mp hc₃ with hh | hh
      · exact hh ▸ habs₁
      · exact habsR c₃ hh

theorem mem_updateClock {f : AlarmClock → AlarmClock} {c : AlarmClock} :
    ∀ {i : Nat} {l : List AlarmClock}, c ∈ updateClock i f l →
      (∃ c₀ ∈ l, c = f c₀) ∨ c ∈ l := by
  intro i l
  induction l generalizing i with
  | nil =>
    intro h
    simp [updateClock] at h
  | cons c₀ rest ih =>
    intro h
    match i with
    | 0 =>
      rcases List.mem_cons.mp h with hh | hh
      · exact Or.inl ⟨c₀, List.mem_cons_self _ _, hh⟩
      · exact Or.inr (List.mem_cons_of_mem _ hh)
    | j + 1 =>
      rcases List.mem_cons.mp h with hh | hh
      · exact Or.inr (by simp [hh])
      · rcases ih hh with ⟨c₁, hc₁, hfc⟩ | hc
        · exact Or.inl ⟨c₁, List.mem_cons_of_mem _ hc₁, hfc⟩
        · exact Or.inr (List.mem_cons_of_mem _ hc)

/-- All pending ids are valid and below the allocation counter: the uniqueness
invariant of id allocation, which holds until the counter wraps. -/
def TimerQueue.idsBelowNext (tq : TimerQueue) : Prop :=
  ∀ c ∈ tq.mAlarmClocks, ∀ p ∈ c.mEvents, 1 ≤ p.1 ∧ p.1 < tq.mNextEventId

instance (tq : TimerQueue) : Decidable tq.idsBelowNext := by
  unfold TimerQueue.idsBelowNext
  infer_instance

theorem holds_next_eq_false {tq : TimerQueue} (hb : tq.idsBelowNext) :
    tq.holds tq.mNextEventId = false := by
  unfold TimerQueue.holds
  rw [List.any_eq_false]
  intro c hc
  unfold AlarmClock.holds
  cases hf : mapFind tq.mNextEventId c.mEvents with
  | none => simp
  | some v =>
    have := (hb c hc _ (mem_of_mapFind_eq_some hf)).2
    simp only at this
    omega

end DispatchLemmas

section Claims

/-- Claim C1: for an event registered against both AlarmClocks whose registrations are
both due, a single dispatch pass gathers the event once into the identity-deduplicated
set and removes the sibling registration from both AlarmClocks during the locked phase,
so the callback list produced for execution invokes it exactly once. -/
theorem C1_dual_registration_executes_once
    {tq : TimerQueue} {c0 c1 : AlarmClock} {e : Event} {t0 t1 now : Int}
    (halarm : tq.mAlarmClocks = [c0, c1]) (hrun : tq.mRunning = true)
    (hinv0 : c0.inv) (hinv1 : c1.inv)
    (hf0 : mapFind e.id c0.mEvents = some (e, t0))
    (hf1 : mapFind e.id c1.mEvents = some (e, t1))
    (hd0 : t0 ≤ now) (hd1 : t1 ≤ now) :
    ∃ executed clocks₂,
      tq.dispatchPass now = some (executed, { tq with mAlarmClocks := clocks₂ }) ∧
      executed.count e = 1 ∧
      ∀ c ∈ clocks₂, mapFind e.id c.mEvents = none ∧ ∀ q ∈ c.mTimeIndex, q.2 ≠ e.id := by
  have hpi0 := (inv_iff_pairInv c0).mp hinv0
  have hpi1 := (inv_iff_pairInv c1).mp hinv1
  have hc0 := @collectLoop_collects now c0.mTimeIndex c0.mEvents [] e e.id t0
      hpi0 hf0 (tiMem_of_found hpi0 hf0) hd0
  have hc1 := @collectLoop_collects now c1.mTimeIndex c1.mEvents
      ((c0.collectEvents true now []).1) e e.id t1 hpi1 hf1 (tiMem_of_found hpi1 hf1) hd1
  have hmem1 : e ∈ (c1.collectEvents true now (c0.collectEvents true now []).1).1 := by
    rw [collectEvents_fst]
    exact hc1.1
  have hnodup0 : (c0.collectEvents true now []).1.Nodup := by
    rw [collectEvents_fst]
    exact collectLoop_nodup _ _ _ List.nodup_nil
  have hnodup1 : (c1.collectEvents true now (c0.collectEvents true now []).1).1.Nodup := by
    rw [collectEvents_fst]
    exact collectLoop_nodup _ _ _ hnodup0
  have habs0 : mapFind e.id ((c0.collectEvents true now []).2).mEvents = none ∧
      ∀ q ∈ ((c0.collectEvents true now []).2).mTimeIndex, q.2 ≠ e.id := by
    rw [collectEvents_snd_mEvents, collectEvents_snd_mTimeIndex]
    exact ⟨hc0.2.1, hc0.2.2⟩
  have habs1 : mapFind e.id
        ((c1.collectEvents true now (c0.collectEvents true now []).1).2).mEvents = none ∧
      ∀ q ∈ ((c1.collectEvents true now (c0.collectEvents true now []).1).2).mTimeIndex,
        q.2 ≠ e.id := by
    rw [collectEvents_snd_mEvents, collectEvents_snd_mTimeIndex]
    exact ⟨hc1.2.1, hc1.2.2⟩
  obtain ⟨c0₃, hrem0, hinv03⟩ := @removeEvents_some_inv true
      ((c1.collectEvents true now (c0.collectEvents true now []).1).1)
      ((c0.collectEvents true now []).2)
      (@inv_collectEvents true now [] c0 hinv0)
  obtain ⟨c1₃, hrem1, hinv13⟩ := @removeEvents_some_inv true
      ((c1.collectEvents true now (c0.collectEvents true now []).1).1)
      ((c1.collectEvents true now (c0.collectEvents true now []).1).2)
      (@inv_collectEvents true now ((c0.collectEvents true now []).1) c1 hinv1)
  have hd := dispatchPass_two halarm hrun (removeEventsAll_two hrem0 hrem1)
  refine ⟨_, [c0₃, c1₃], hd, ?_, ?_⟩
  · have hperm := sortByPriority_perm
      ((c1.collectEvents true now (c0.collectEvents true now []).1).1)
    rw [hperm.count_eq]
    exact List.count_eq_one_of_mem hnodup1 hmem1
  · intro c hc
    rcases List.mem_cons.mp hc with hc₂ | hc₂
    · subst hc₂
      exact removeEvents_preserves_absent hrem0 habs0.1 habs0.2
    · rw [List.mem_singleton.mp hc₂]
      exact removeEvents_preserves_absent hrem1 habs1.1 habs1.2

/-- Witness for C1 at a concrete dual-registered event. -/
theorem C1_witness :
    ∃ executed clocks₂,
      TimerQueue.dispatchPass 30
          ⟨true, true, true, 6,
            [⟨[(5, ⟨5, 7⟩, 10)], [(10, 5)], 10⟩, ⟨[(5, ⟨5, 7⟩, 20)], [(20, 5)], 20⟩]⟩ =
        some (executed, ⟨true, true, true, 6, clocks₂⟩) ∧
      executed.count ⟨5, 7⟩ = 1 ∧
      ∀ c ∈ clocks₂, mapFind (5 : Int) c.mEvents = none ∧
        ∀ q ∈ c.mTimeIndex, q.2 ≠ (5 : Int) :=
  @C1_dual_registration_executes_once
    ⟨true, true, true, 6,
      [⟨[(5, ⟨5, 7⟩, 10)], [(10, 5)], 10⟩, ⟨[(5, ⟨5, 7⟩, 20)], [(20, 5)], 20⟩]⟩
    ⟨[(5, ⟨5, 7⟩, 10)], [(10, 5)], 10⟩ ⟨[(5, ⟨5, 7⟩, 20)], [(20, 5)], 20⟩
    ⟨5, 7⟩ 10 20 30 rfl rfl
    (by decide) (by decide) (by decide) (by decide) (by decide) (by decide)

/-- Claim C2 counterexample: two collected events share `priorityTime = 5`; the one
with the larger id (2) runs before the one with the smaller id (1), because the
dispatch sort comparator looks only at `priorityTime`. -/
theorem C2_counterexample :
    TimerQueue.dispatchPass 20
        (((TimerQueue.mk' true false).addDual true 20 20 5).2.addDual true 10 10 5).2 =
      some ([⟨2, 5⟩, ⟨1, 5⟩], ⟨true, false, true, 3, [⟨[], [], 0⟩]⟩) ∧
    (⟨2, 5⟩ : Event).priorityTime = (⟨1, 5⟩ : Event).priorityTime ∧
    (⟨1, 5⟩ : Event).id < (⟨2, 5⟩ : Event).id := by
  refine ⟨by decide, rfl, by decide⟩

/-- Claim C2 amended: within a single dispatch pass the executed sequence is ordered
by non-decreasing `priorityTime`; equal `priorityTime` events appear in an order the
sort does not constrain (no tie-break by id). -/
theorem C2_execution_sorted_by_priorityTime {now : Int} {tq : TimerQueue}
    {executed : List Event} {tq₂ : TimerQueue}
    (h : tq.dispatchPass now = some (executed, tq₂)) :
    executed.Pairwise (fun a b => a.priorityTime ≤ b.priorityTime) := by
  unfold TimerQueue.dispatchPass at h
  split at h
  · have h₂ := Option.some.inj h
    have hex : [] = executed := congrArg Prod.fst h₂
    rw [← hex]
    simp
  · dsimp only at h
    split at h
    · exact absurd h (by simp)
    · have h₂ := Option.some.inj h
      have hex : sortByPriority _ = executed := congrArg Prod.fst h₂
      rw [← hex]
      exact sorted_sortByPriority _

/-- Witness for the amended C2 on a concrete dispatch pass. -/
theorem C2_witness :
    ([⟨2, 5⟩, ⟨1, 5⟩] : List Event).Pairwise
      (fun a b => a.priorityTime ≤ b.priorityTime) :=
  @C2_execution_sorted_by_priorityTime 20
    ((((TimerQueue.mk' true false).addDual true 20 20 5).2.addDual true 10 10 5).2)
    [⟨2, 5⟩, ⟨1, 5⟩] ⟨true, false, true, 3, [⟨[], [], 0⟩]⟩ (by decide)

/-- Claim C8: submission with a null callback, or while the Clock is not ready,
returns the reserved invalid id and leaves the entire state unchanged. -/
theorem C8_add_rejects_without_mutation {tq : TimerQueue} {fnValid : Bool}
    {t soft hard prio : Int} (h : tq.clockReady = false ∨ fnValid = false) :
    tq.add fnValid t = (INVALID_EVENT_ID, tq) ∧
    tq.addDual fnValid soft hard prio = (INVALID_EVENT_ID, tq) := by
  unfold TimerQueue.add TimerQueue.addDual
  rcases h with h | h <;> rw [h] <;> simp

/-- Witness for C8: a null callback submission on a ready queue. -/
theorem C8_witness :
    (TimerQueue.mk' true false).add false 100 = (INVALID_EVENT_ID, TimerQueue.mk' true false) ∧
    (TimerQueue.mk' true false).addDual false 1 2 3 =
      (INVALID_EVENT_ID, TimerQueue.mk' true false) :=
  C8_add_rejects_without_mutation (Or.inr rfl)

/-- Claim C7: the dual-deadline add registers the event on the awake-only AlarmClock
at `softDeadline` and, exactly when alarm mode is on, also on the wake-from-suspend
AlarmClock at `hardDeadline`; the stored `priorityTime` is the given one when
non-negative and `hardDeadline` otherwise. -/
theorem C7_dual_deadline_registration {tq : TimerQueue} {soft hard prio : Int}
    (hready : tq.clockReady = true) :
    (∀ c0 c1, tq.mAlarm = true → tq.mAlarmClocks = [c0, c1] →
      mapFind tq.mNextEventId c0.mEvents = none →
      mapFind tq.mNextEventId c1.mEvents = none →
      ∃ e : Event, (tq.addDual true soft hard prio).1 = e.id ∧
        e.priorityTime = (if prio ≥ 0 then prio else hard) ∧
        ∃ c0₂ c1₂, (tq.addDual true soft hard prio).2.mAlarmClocks = [c0₂, c1₂] ∧
          mapFind e.id c0₂.mEvents = some (e, soft) ∧
          mapFind e.id c1₂.mEvents = some (e, hard)) ∧
    (∀ c0, tq.mAlarm = false → tq.mAlarmClocks = [c0] →
      mapFind tq.mNextEventId c0.mEvents = none →
      ∃ e : Event, (tq.addDual true soft hard prio).1 = e.id ∧
        e.priorityTime = (if prio ≥ 0 then prio else hard) ∧
        ∃ c0₂, (tq.addDual true soft hard prio).2.mAlarmClocks = [c0₂] ∧
          mapFind e.id c0₂.mEvents = some (e, soft)) := by
  constructor
  · intro c0 c1 halarm hclocks hfresh0 hfresh1
    refine ⟨⟨tq.mNextEventId, if prio ≥ 0 then prio else hard⟩, ?_, rfl,
      c0.add tq.mRunning soft ⟨tq.mNextEventId, if prio ≥ 0 then prio else hard⟩,
      c1.add tq.mRunning hard ⟨tq.mNextEventId, if prio ≥ 0 then prio else hard⟩,
      ?_, ?_, ?_⟩
    · rw [addDual_alarm_eq hready halarm hclocks]
    · rw [addDual_alarm_eq hready halarm hclocks]
    · rw [add_mEvents]
      exact mapFind_mapInsert_self hfresh0
    · rw [add_mEvents]
      exact mapFind_mapInsert_self hfresh1
  · intro c0 halarm hclocks hfresh0
    refine ⟨⟨tq.mNextEventId, if prio ≥ 0 then prio else hard⟩, ?_, rfl,
      c0.add tq.mRunning soft ⟨tq.mNextEventId, if prio ≥ 0 then prio else hard⟩,
      ?_, ?_⟩
    · rw [addDual_noalarm_eq hready halarm hclocks]
    · rw [addDual_noalarm_eq hready halarm hclocks]
    · rw [add_mEvents]
      exact mapFind_mapInsert_self hfresh0

/-- Witness for C7 on a fresh alarm-mode queue. -/
theorem C7_witness :
    ∃ e : Event, ((TimerQueue.mk' true true).addDual true 10 20 (-1)).1 = e.id ∧
      e.priorityTime = (if (-1 : Int) ≥ 0 then (-1 : Int) else 20) ∧
      ∃ c0₂ c1₂,
        ((TimerQueue.mk' true true).addDual true 10 20 (-1)).2.mAlarmClocks = [c0₂, c1₂] ∧
        mapFind e.id c0₂.mEvents = some (e, 10) ∧
        mapFind e.id c1₂.mEvents = some (e, 20) :=
  (C7_dual_deadline_registration rfl).1 AlarmClock.init AlarmClock.init rfl rfl
    (by decide) (by decide)

/-- Claim C3: every AlarmClock mutation under the TimerQueue lock re-establishes the
arming discipline: the timer is armed to the earliest held deadline, disarmed (0) when
no events are held, or armed to 1 when the queue is shutting down. -/
theorem C3_arming_invariant {running : Bool} {ac : AlarmClock} (h : ac.armedOk running) :
    (∀ t e, (ac.add running t e).armedOk running) ∧
    (∀ id b ac₂, AlarmClock.remove running id ac = some (b, ac₂) → ac₂.armedOk running) ∧
    (∀ now out, ((ac.collectEvents running now out).2).armedOk running) ∧
    (∀ events ac₂, AlarmClock.removeEvents running events ac = some ac₂ →
      ac₂.armedOk running) :=
  ⟨fun _ _ => armedOk_add h,
   fun _ _ _ hr => armedOk_remove h hr,
   fun now out => armedOk_collectEvents running now out ac,
   fun _ _ hr => armedOk_removeEvents h hr⟩

/-- Witness for C3 on a concrete armed clock. -/
theorem C3_witness :
    ((⟨[(1, ⟨1, 5⟩, 10)], [(10, 1)], 10⟩ : AlarmClock).add true 3 ⟨2, 7⟩).armedOk true ∧
    (((⟨[(1, ⟨1, 5⟩, 10)], [(10, 1)], 10⟩ : AlarmClock).collectEvents true 30 []).2).armedOk
      true :=
  ⟨(C3_arming_invariant (by decide)).1 3 ⟨2, 7⟩,
   (C3_arming_invariant (by decide)).2.2.1 30 []⟩

/-- Claim C4 counterexample: calling `AlarmClock::add` twice with the same event id is
a sequence of the listed operations that breaks consistency, because `std::map::emplace`
keeps the old entry while `std::multimap::emplace` inserts a second one. -/
theorem C4_counterexample :
    AlarmClock.init.inv ∧
    (AlarmClock.init.add true 10 ⟨1, 5⟩).inv ∧
    ¬ ((AlarmClock.init.add true 10 ⟨1, 5⟩).add true 20 ⟨1, 5⟩).consistent := by
  refine ⟨by decide, by decide, by decide⟩

/-- Claim C4 amended: add with an id absent from the id-map (as the TimerQueue id
allocator provides, absent wraparound), remove, collectEvents and removeEvents all
preserve mutual consistency of the two indexes. -/
theorem C4_index_consistency {running : Bool} {ac : AlarmClock} (h : ac.inv) :
    (∀ t e, mapFind e.id ac.mEvents = none → (ac.add running t e).inv) ∧
    (∀ id b ac₂, AlarmClock.remove running id ac = some (b, ac₂) → ac₂.inv) ∧
    (∀ now out, ((ac.collectEvents running now out).2).inv) ∧
    (∀ events ac₂, AlarmClock.removeEvents running events ac = some ac₂ → ac₂.inv) := by
  refine ⟨fun t e hfresh => inv_add h hfresh,
    fun id b ac₂ hr => inv_remove h hr,
    fun now out => inv_collectEvents h,
    fun events ac₂ hr => ?_⟩
  obtain ⟨ac₃, hr₂, hinv₂⟩ := @removeEvents_some_inv running events ac h
  rw [hr₂] at hr
  rw [← Option.some.inj hr]
  exact hinv₂

/-- Witness for the amended C4 on a concrete clock. -/
theorem C4_witness :
    ((⟨[(1, ⟨1, 5⟩, 10)], [(10, 1)], 10⟩ : AlarmClock).add true 3 ⟨2, 7⟩).inv ∧
    (((⟨[(1, ⟨1, 5⟩, 10)], [(10, 1)], 10⟩ : AlarmClock).collectEvents true 30 []).2).inv :=
  ⟨(C4_index_consistency (by decide)).1 3 ⟨2, 7⟩ (by decide),
   (C4_index_consistency (by decide)).2.2.1 30 []⟩

/-- Claim C10: under index consistency, an id found in the id-map guarantees a
non-empty deadline index, so the `mTimeIndex.begin()` read in `AlarmClock::remove` is
well-defined and the undefined-behaviour branch is unreachable. -/
theorem C10_remove_head_defined {ac : AlarmClock} {id : Int} (h : ac.inv) :
    (∀ v, mapFind id ac.mEvents = some v → ac.mTimeIndex ≠ []) ∧
    (∀ running, AlarmClock.remove running id ac ≠ none) :=
  ⟨fun _ hf => timeIndex_ne_nil_of_found h hf, fun _ => remove_ne_none h⟩

/-- Witness for C10 on a concrete clock. -/
theorem C10_witness :
    ((⟨[(1, ⟨1, 5⟩, 10)], [(10, 1)], 10⟩ : AlarmClock).mTimeIndex ≠ []) ∧
    (AlarmClock.remove true 1 ⟨[(1, ⟨1, 5⟩, 10)], [(10, 1)], 10⟩ ≠ none) :=
  ⟨(@C10_remove_head_defined ⟨[(1, ⟨1, 5⟩, 10)], [(10, 1)], 10⟩ 1 (by decide)).1
      (⟨1, 5⟩, 10) (by decide),
   (@C10_remove_head_defined ⟨[(1, ⟨1, 5⟩, 10)], [(10, 1)], 10⟩ 1 (by decide)).2 true⟩

/-- Claim C9: `TimerQueue::remove` attempts removal on every AlarmClock and returns
true exactly when some AlarmClock held the (valid) id; an unknown, already-fired or
invalid id yields false, and when no index holds the id the state is unchanged; a
removed id is afterwards held by no AlarmClock. -/
theorem C9_remove_semantics {tq : TimerQueue} {id : Int}
    (hready : tq.clockReady = true) (hinv : ∀ c ∈ tq.mAlarmClocks, c.inv) :
    ∃ found tq₂, tq.remove id = some (found, tq₂) ∧
      (found = true ↔ id ≠ INVALID_EVENT_ID ∧
        ∃ c ∈ tq.mAlarmClocks, (mapFind id c.mEvents).isSome = true) ∧
      ((id = INVALID_EVENT_ID ∨ ∀ c ∈ tq.mAlarmClocks, mapFind id c.mEvents = none) →
        tq₂ = tq) ∧
      (id ≠ INVALID_EVENT_ID → ∀ c ∈ tq₂.mAlarmClocks, mapFind id c.mEvents = none) := by
  by_cases hid : id = INVALID_EVENT_ID
  · refine ⟨false, tq, ?_, ?_, fun _ => rfl, fun hc => absurd hid hc⟩
    · unfold TimerQueue.remove
      rw [if_pos (Or.inr hid)]
    · simp [hid]
  · obtain ⟨found, clocks₂, hrf, hiff, hunch, habs⟩ :=
      @removeFromClocks_spec tq.mRunning id hid tq.mAlarmClocks hinv
    refine ⟨found, { tq with mAlarmClocks := clocks₂ }, ?_, ?_, ?_, fun _ => habs⟩
    · unfold TimerQueue.remove
      rw [if_neg (by simp [hready, hid])]
      rw [hrf]
    · rw [hiff]
      constructor
      · intro hh
        exact ⟨hid, hh⟩
      · rintro ⟨-, hh⟩
        exact hh
    · intro hall
      rcases hall with hh | hh
      · exact absurd hh hid
      · rw [hunch hh]

/-- Witness for C9 on a queue holding one event with id 1. -/
theorem C9_witness :
    ∃ found tq₂,
      TimerQueue.remove 1 ⟨true, false, true, 2, [⟨[(1, ⟨1, 100⟩, 100)], [(100, 1)], 100⟩]⟩ =
        some (found, tq₂) ∧
      (found = true ↔ (1 : Int) ≠ INVALID_EVENT_ID ∧
        ∃ c ∈ ([⟨[(1, ⟨1, 100⟩, 100)], [(100, 1)], 100⟩] : List AlarmClock),
          (mapFind 1 c.mEvents).isSome = true) ∧
      (((1 : Int) = INVALID_EVENT_ID ∨
          ∀ c ∈ ([⟨[(1, ⟨1, 100⟩, 100)], [(100, 1)], 100⟩] : List AlarmClock),
            mapFind 1 c.mEvents = none) →
        tq₂ = ⟨true, false, true, 2, [⟨[(1, ⟨1, 100⟩, 100)], [(100, 1)], 100⟩]⟩) ∧
      ((1 : Int) ≠ INVALID_EVENT_ID →
        ∀ c ∈ tq₂.mAlarmClocks, mapFind 1 c.mEvents = none) :=
  C9_remove_semantics rfl (by decide)

/-- Claim C5 counterexample: on a TimerQueue whose Clock is not ready the destructor
returns immediately: `running` stays true, no timer is armed for immediate fire and
the AlarmClocks are not released. -/
theorem C5_counterexample :
    (TimerQueue.destructor ⟨false, false, true, 1, [AlarmClock.init]⟩).mRunning = true ∧
    (TimerQueue.destructor ⟨false, false, true, 1, [AlarmClock.init]⟩).mAlarmClocks ≠ [] :=
  ⟨by decide, by decide⟩

/-- Claim C5 amended: on a TimerQueue whose Clock is ready, the destructor signals
shutdown under the lock (running set to false, every AlarmClock armed to fire at 1), a
dispatch pass observing the signalled state executes no pending events, and the
destructor then releases the Clock and the AlarmClocks. -/
theorem C5_destructor_shutdown {tq : TimerQueue} (hready : tq.clockReady = true) :
    tq.destructorSignal.mRunning = false ∧
    (∀ c ∈ tq.destructorSignal.mAlarmClocks, c.armed = 1) ∧
    (∀ now, tq.destructorSignal.dispatchPass now = some ([], tq.destructorSignal)) ∧
    tq.destructor = { tq.destructorSignal with clockReady := false, mAlarmClocks := [] } := by
  refine ⟨rfl, ?_, ?_, ?_⟩
  · intro c hc
    obtain ⟨c₀, -, rfl⟩ := List.mem_map.mp hc
    rfl
  · intro now
    unfold TimerQueue.dispatchPass
    rw [if_pos (by simp [TimerQueue.destructorSignal])]
  · unfold TimerQueue.destructor
    rw [if_neg (by simp [hready])]

/-- Witness for the amended C5 on a ready queue with one pending event. -/
theorem C5_witness :
    (TimerQueue.destructorSignal
        ⟨true, false, true, 2, [⟨[(1, ⟨1, 9⟩, 9)], [(9, 1)], 9⟩]⟩).mRunning = false ∧
    TimerQueue.dispatchPass 100
        (TimerQueue.destructorSignal
          ⟨true, false, true, 2, [⟨[(1, ⟨1, 9⟩, 9)], [(9, 1)], 9⟩]⟩) =
      some ([], TimerQueue.destructorSignal
        ⟨true, false, true, 2, [⟨[(1, ⟨1, 9⟩, 9)], [(9, 1)], 9⟩]⟩) ∧
    TimerQueue.destructor ⟨true, false, true, 2, [⟨[(1, ⟨1, 9⟩, 9)], [(9, 1)], 9⟩]⟩ =
      { TimerQueue.destructorSignal
          ⟨true, false, true, 2, [⟨[(1, ⟨1, 9⟩, 9)], [(9, 1)], 9⟩]⟩ with
        clockReady := false, mAlarmClocks := [] } :=
  ⟨(C5_destructor_shutdown rfl).1,
   (C5_destructor_shutdown rfl).2.2.1 100,
   (C5_destructor_shutdown rfl).2.2.2⟩

/-- Claim C6 amended: id assignment starts at 1, increments by 1 per allocation,
wraps from `INT64_MAX` back to 1 and never yields the reserved invalid id; every add
returns an id held by no pending event provided all pending ids are below the counter
(true until the counter wraps with a pending survivor from the previous cycle). -/
theorem C6_id_allocation {tq : TimerQueue} {t soft hard prio : Int}
    (hready : tq.clockReady = true) (hb : tq.idsBelowNext) (h1 : 1 ≤ tq.mNextEventId) :
    (TimerQueue.mk' true tq.mAlarm).mNextEventId = 1 ∧
    (tq.add true t).1 = tq.mNextEventId ∧
    (tq.addDual true soft hard prio).1 = tq.mNextEventId ∧
    (tq.add true t).1 ≠ INVALID_EVENT_ID ∧
    tq.holds (tq.add true t).1 = false ∧
    tq.holds (tq.addDual true soft hard prio).1 = false ∧
    (tq.add true t).2.mNextEventId =
      (if tq.mNextEventId = INT64_MAX then 1 else tq.mNextEventId + 1) ∧
    (tq.mNextEventId < INT64_MAX →
      (tq.add true t).2.idsBelowNext ∧ 1 ≤ (tq.add true t).2.mNextEventId) := by
  have hid : (tq.add true t).1 = tq.mNextEventId := by rw [add_eq hready]
  have hid₂ : (tq.addDual true soft hard prio).1 = tq.mNextEventId := by
    unfold TimerQueue.addDual TimerQueue.getNextEventId_l
    rw [hready]
    rw [if_neg (by simp)]
  refine ⟨rfl, hid, hid₂, ?_, ?_, ?_, ?_, ?_⟩
  · rw [hid]
    unfold INVALID_EVENT_ID
    omega
  · rw [hid]
    exact holds_next_eq_false hb
  · rw [hid₂]
    exact holds_next_eq_false hb
  · rw [add_eq hready]
  · intro hlt
    constructor
    · rw [add_eq hready]
      intro c hc p hp
      simp only
      rw [if_neg (by omega)]
      rcases mem_updateClock hc with ⟨c₀, hc₀, rfl⟩ | hc₀
      · rw [add_mEvents] at hp
        rcases mem_of_mem_mapInsert hp with hpe | hpe
        · rw [hpe]
          simp only
          omega
        · have := hb c₀ hc₀ p hpe
          omega
      · have := hb c hc₀ p hp
        omega
    · rw [add_eq hready]
      simp only
      rw [if_neg (by omega)]
      omega

/-- Witness for the amended C6 on a fresh queue after one allocation. -/
theorem C6_witness :
    (TimerQueue.mk' true false).mNextEventId = 1 ∧
    ((((TimerQueue.mk' true false).add true 50).2).add true 70).1 =
      ((TimerQueue.mk' true false).add true 50).2.mNextEventId ∧
    (((TimerQueue.mk' true false).add true 50).2).holds
      ((((TimerQueue.mk' true false).add true 50).2).add true 70).1 = false := by
  have h := @C6_id_allocation ((TimerQueue.mk' true false).add true 50).2 70 1 2 3
    (by decide) (by decide) (by decide)
  exact ⟨by decide, h.2.1, h.2.2.2.2.1⟩

/-- One add-then-remove pair, used to advance the id counter while keeping the
pending set fixed. -/
def wrapStep (tq : TimerQueue) : TimerQueue :=
  match (tq.add true 100).2.remove (tq.add true 100).1 with
  | some p => p.2
  | none => (tq.add true 100).2

def bigT : Int := 1000000000000000000

/-- Queue with one immortal pending event (id 1) and counter value `n`. -/
def cexState (n : Int) : TimerQueue :=
  ⟨true, false, true, n, [⟨[(1, ⟨1, bigT⟩, bigT)], [(bigT, 1)], bigT⟩]⟩

theorem add_cex {n : Int} (h2 : 2 ≤ n) :
    AlarmClock.add true 100 ⟨n, 100⟩ ⟨[(1, ⟨1, bigT⟩, bigT)], [(bigT, 1)], bigT⟩ =
      ⟨[(1, ⟨1, bigT⟩, bigT), (n, ⟨n, 100⟩, 100)], [(100, n), (bigT, 1)], 100⟩ := by
  have hmi : mapInsert n (⟨n, 100⟩, 100) [(1, ⟨1, bigT⟩, bigT)] =
      [(1, ⟨1, bigT⟩, bigT), (n, ⟨n, 100⟩, 100)] := by
    simp only [mapInsert]
    rw [if_neg (show ¬ n < 1 by omega), if_neg (show ¬ n = 1 by omega)]
  have h₁ : AlarmClock.add true 100 ⟨n, 100⟩ ⟨[(1, ⟨1, bigT⟩, bigT)], [(bigT, 1)], bigT⟩ =
      AlarmClock.armTimerForNextEvent true
        ⟨mapInsert n (⟨n, 100⟩, 100) [(1, ⟨1, bigT⟩, bigT)], [(100, n), (bigT, 1)], bigT⟩ :=
    rfl
  rw [h₁, hmi]
  rfl

theorem remove_cex {n : Int} (h2 : 2 ≤ n) :
    AlarmClock.remove true n
        ⟨[(1, ⟨1, bigT⟩, bigT), (n, ⟨n, 100⟩, 100)], [(100, n), (bigT, 1)], 100⟩ =
      some (true, ⟨[(1, ⟨1, bigT⟩, bigT)], [(bigT, 1)], bigT⟩) := by
  have hfind : mapFind n [(1, ⟨1, bigT⟩, bigT), (n, ⟨n, 100⟩, 100)] =
      some (⟨n, 100⟩, 100) := by
    simp only [mapFind]
    rw [if_neg (show ¬ (1 : Int) = n by omega)]
    simp
  have herase : mapErase n [(1, ⟨1, bigT⟩, bigT), (n, ⟨n, 100⟩, 100)] =
      [(1, ⟨1, bigT⟩, bigT)] := by
    simp only [mapErase]
    rw [if_neg (show ¬ (1 : Int) = n by omega)]
    simp
  have hmm2 : mmEraseFirst 100 n [(100, n), (bigT, 1)] = [(bigT, 1)] := by
    simp only [mmEraseFirst]
    simp
  unfold AlarmClock.remove
  rw [if_neg (show ¬ n = INVALID_EVENT_ID by unfold INVALID_EVENT_ID; omega)]
  rw [hfind]
  simp [herase, hmm2, AlarmClock.armTimerForNextEvent]

theorem wrapStep_cexState {n : Int} (h2 : 2 ≤ n) :
    wrapStep (cexState n) = cexState (if n = INT64_MAX then 1 else n + 1) := by
  have hadd : (cexState n).add true 100 =
      (n, ⟨true, false, true, if n = INT64_MAX then 1 else n + 1,
        [⟨[(1, ⟨1, bigT⟩, bigT), (n, ⟨n, 100⟩, 100)], [(100, n), (bigT, 1)], 100⟩]⟩) := by
    rw [add_eq rfl]
    show ((n, ⟨true, false, true, if n = INT64_MAX then 1 else n + 1,
        [AlarmClock.add true 100 ⟨n, 100⟩ ⟨[(1, ⟨1, bigT⟩, bigT)], [(bigT, 1)], bigT⟩]⟩) :
        Int × TimerQueue) = _
    rw [add_cex h2]
  have hrfc : removeFromClocks true n
      [⟨[(1, ⟨1, bigT⟩, bigT), (n, ⟨n, 100⟩, 100)], [(100, n), (bigT, 1)], 100⟩] =
      some (true, [⟨[(1, ⟨1, bigT⟩, bigT)], [(bigT, 1)], bigT⟩]) := by
    unfold removeFromClocks
    rw [remove_cex h2]
    rfl
  have hrem : (⟨true, false, true, if n = INT64_MAX then 1 else n + 1,
      [(⟨[(1, ⟨1, bigT⟩, bigT), (n, ⟨n, 100⟩, 100)], [(100, n), (bigT, 1)], 100⟩ :
        AlarmClock)]⟩ : TimerQueue).remove n =
      some (true, cexState (if n = INT64_MAX then 1 else n + 1)) := by
    unfold TimerQueue.remove
    rw [if_neg (show ¬ (¬ (true = true) ∨ n = INVALID_EVENT_ID) by
      unfold INVALID_EVENT_ID
      simp
      omega)]
    rw [hrfc]
    rfl
  unfold wrapStep
  rw [hadd]
  dsimp only
  rw [hrem]

theorem wrapStep_iterate : ∀ (k : Nat), 2 + (k : Int) ≤ INT64_MAX →
    wrapStep^[k] (cexState 2) = cexState (2 + k) := by
  intro k
  induction k with
  | zero =>
    intro _
    simp
  | succ k ih =>
    intro hk
    have hk₂ : 2 + (k : Int) ≤ INT64_MAX := by push_cast at hk ⊢; omega
    rw [Function.iterate_succ_apply', ih hk₂, wrapStep_cexState (by omega)]
    rw [if_neg (show ¬ (2 + (k : Int)) = INT64_MAX by push_cast at hk; omega)]
    have hc : (2 : Int) + ↑k + 1 = 2 + ↑(k + 1) := by push_cast; ring
    rw [hc]

theorem C6_counterexample :
    ((TimerQueue.mk' true false).add true bigT).2 = cexState 2 ∧
    ((wrapStep^[(INT64_MAX - 2).toNat + 1] (cexState 2)).add true 100).1 = 1 ∧
    ((wrapStep^[(INT64_MAX - 2).toNat + 1] (cexState 2)).add true 100).1 ≠
      INVALID_EVENT_ID ∧
    TimerQueue.holds (wrapStep^[(INT64_MAX - 2).toNat + 1] (cexState 2)) 1 = true := by
  have hcast : (((INT64_MAX - 2).toNat : Int)) = INT64_MAX - 2 :=
    Int.toNat_of_nonneg (by unfold INT64_MAX; omega)
  have hiter : wrapStep^[(INT64_MAX - 2).toNat] (cexState 2) = cexState INT64_MAX := by
    have h := wrapStep_iterate (INT64_MAX - 2).toNat (by rw [hcast]; omega)
    rw [h]
    have hc₂ : (2 : Int) + ↑(INT64_MAX - 2).toNat = INT64_MAX := by
      rw [hcast]
      unfold INT64_MAX
      omega
    rw [hc₂]
  have hfinal : wrapStep^[(INT64_MAX - 2).toNat + 1] (cexState 2) = cexState 1 := by
    rw [Function.iterate_succ_apply', hiter, wrapStep_cexState (by unfold INT64_MAX; omega)]
    rw [if_pos rfl]
  rw [hfinal]
  exact ⟨by decide, by decide, by decide, by decide⟩

end Claims

end AudioUtils
